import Mathlib

/-!
Verification development for the level-order tree decoder
(`graph4nlp/pytorch/modules/prediction/generation/TreeBasedDecoder.py`).

The decoder works on a single tree at a time in inference and on a batch in
training; every definition here models the batch-size-1 instance (the per-tree
computations in the source are independent across the batch dimension).
Learned numeric layers (embedding lookup, LSTM cell, attention, linear and
softmax layers) are external collaborators of the decoding control algorithm
and are modelled as abstract function parameters; everything the control
algorithm itself does (queue scheduling, state-table indexing, teacher forcing,
copy-distribution mixing, truncation, tree assembly) is translated directly
from the source.
-/

deriving instance DecidableEq for Except

namespace TreeDecoder

mutual
/-- A decoded tree as in `graph4nlp...tree_utils.Tree`: an ordered node whose
`children` list holds a mix of terminal token ids (ints in the Python source)
and subtrees (`Tree` objects). -/
inductive PTree : Type where
  | node : List PChild → PTree

/-- One child slot of a `PTree`: a terminal token id or a subtree. -/
inductive PChild : Type where
  | tok : ℕ → PChild
  | sub : PTree → PChild
end

/-- The children list of a tree node (`Tree.children`). -/
def PTree.children : PTree → List PChild
  | .node cs => cs

instance : Inhabited PTree := ⟨.node []⟩
instance : Inhabited PChild := ⟨.tok 0⟩

mutual
/-- Number of nodes of a tree (root plus all subtree nodes); used only as the
termination measure of the queue construction. -/
def PTree.size : PTree → ℕ
  | .node cs => 1 + sizeList cs

/-- Total size of the subtree children of a children list. -/
def sizeList : List PChild → ℕ
  | [] => 0
  | .tok _ :: rest => sizeList rest
  | .sub t :: rest => PTree.size t + sizeList rest
end

/-- One entry of the per-tree decoding queue (the `queue_tree[i]` entries built
by `get_dec_batch` and the `queue_decode` entries of `translate`): the subtree
it stands for, the 1-based queue position of its parent entry (0 for the root),
and its 1-based child slot within the parent (`child_index`). -/
structure QEntry where
  tree : PTree
  parent : ℕ
  childIndex : ℕ

/-- The reserved placeholder id written for a subtree child
(`w_list.append(4)` in `get_dec_batch`). -/
def ntTok : ℕ := 4

/-- The queue entries created when the entry at 1-based queue position `pos` is
scanned (`get_dec_batch` lines 581-585): one entry per `Tree`-valued child `ic`
of its node, carrying the subtree, parent pointer `pos`, and
`child_index = ic + 1`.  `k` is the slot offset of the first listed child
(0 at the top call). -/
def childrenEntriesFrom (k : ℕ) (cs : List PChild) (pos : ℕ) : List QEntry :=
  match cs with
  | [] => []
  | .tok _ :: rest => childrenEntriesFrom (k + 1) rest pos
  | .sub t :: rest => ⟨t, pos, k + 1⟩ :: childrenEntriesFrom (k + 1) rest pos

/-- The queue entries for all children of one node. -/
def childrenEntries (cs : List PChild) (pos : ℕ) : List QEntry :=
  childrenEntriesFrom 0 cs pos

/-- `w_list` for one queue entry: subtree children are replaced by the
placeholder id, terminal children keep their token id. -/
def flatTokens (cs : List PChild) : List ℕ :=
  cs.map fun c => match c with | .tok n => n | .sub _ => ntTok

/-- The flat tree a queue entry holds at assembly time: every child attached as
a terminal token (as `translate` does with `t.add_child(int(...))`), subtree
slots holding the placeholder id. -/
def flatTree (t : PTree) : PTree := .node ((flatTokens t.children).map .tok)

/-- Total size of the trees of a list of pending queue entries. -/
def pendingSize (es : List QEntry) : ℕ := (es.map fun e => e.tree.size).sum

theorem pendingSize_cons (e : QEntry) (es : List QEntry) :
    pendingSize (e :: es) = e.tree.size + pendingSize es := by
  simp [pendingSize]

theorem pendingSize_append (a b : List QEntry) :
    pendingSize (a ++ b) = pendingSize a + pendingSize b := by
  simp [pendingSize]

theorem pendingSize_childrenEntriesFrom (cs : List PChild) (k pos : ℕ) :
    pendingSize (childrenEntriesFrom k cs pos) = sizeList cs := by
  induction cs generalizing k with
  | nil => simp [childrenEntriesFrom, pendingSize, sizeList]
  | cons c rest ih =>
    cases c with
    | tok n =>
      rw [childrenEntriesFrom, ih (k + 1), sizeList]
    | sub t =>
      rw [childrenEntriesFrom, pendingSize_cons, ih (k + 1), sizeList]

theorem size_eq_children (t : PTree) : t.size = 1 + sizeList t.children := by
  cases t with
  | node cs => rfl

theorem pendingSize_cons_lt (e : QEntry) (rest : List QEntry) (pos : ℕ) :
    pendingSize (rest ++ childrenEntries e.tree.children pos) < pendingSize (e :: rest) := by
  rw [pendingSize_append, pendingSize_cons, childrenEntries,
    pendingSize_childrenEntriesFrom, size_eq_children]
  omega

/-- Breadth-first queue construction shared by `get_dec_batch` (training) and
`translate` (inference), restricted to one tree: the entry at 0-based queue
position `n` is scanned, its subtree children are appended to the end of the
queue with parent pointer `n + 1` (the scanned entry's 1-based position), and
scanning moves on to position `n + 1`.  `pending` is the not-yet-scanned slice
of the queue; the source's `while cur_index <= max_index` loop ends exactly
when this slice is empty. -/
def bfsTail (n : ℕ) (pending : List QEntry) : List QEntry :=
  match pending with
  | [] => []
  | e :: rest => e :: bfsTail (n + 1) (rest ++ childrenEntries e.tree.children (n + 1))
termination_by pendingSize pending
decreasing_by exact pendingSize_cons_lt e rest (n + 1)

theorem bfsTail_nil (n : ℕ) : bfsTail n [] = [] := by
  rw [bfsTail]

theorem bfsTail_cons (n : ℕ) (e : QEntry) (rest : List QEntry) :
    bfsTail n (e :: rest)
      = e :: bfsTail (n + 1) (rest ++ childrenEntries e.tree.children (n + 1)) := by
  rw [bfsTail]

/-- The root entry the queue starts from (`{"tree": ..., "parent": 0,
"child_index": 1}`). -/
def rootEntry (T : PTree) : QEntry := ⟨T, 0, 1⟩

/-- The full linearized queue of a tree. -/
def linearize (T : PTree) : List QEntry := bfsTail 0 [rootEntry T]

/-! ### List update helpers -/

theorem getD_set_self {α : Type _} (l : List α) (i : ℕ) (v d : α) (h : i < l.length) :
    (l.set i v).getD i d = v := by
  induction l generalizing i with
  | nil => simp at h
  | cons a t ih =>
    cases i with
    | zero => rfl
    | succ n => exact ih n (by simpa using h)

theorem getD_set_ne {α : Type _} (l : List α) (i j : ℕ) (v d : α) (h : i ≠ j) :
    (l.set i v).getD j d = l.getD j d := by
  induction l generalizing i j with
  | nil => rfl
  | cons a t ih =>
    cases i with
    | zero =>
      cases j with
      | zero => exact absurd rfl h
      | succ m => rfl
    | succ n =>
      cases j with
      | zero => rfl
      | succ m => exact ih n m (by omega)

/-! ### Final tree assembly (`translate`, lines 477-481) -/

/-- One attachment of the assembly walk
(`queue_decode[cur["parent"]-1]["t"].children[cur["child_index"]-1] = cur["t"]`)
acting on one tree: child slot `i` (0-based) is overwritten with the subtree. -/
def setChild (t : PTree) (i : ℕ) (sub : PTree) : PTree :=
  .node (t.children.set i (.sub sub))

/-- The assembly walk of `translate`: the queue is traversed from its
last-appended entry back to the first, and each entry's current tree is
attached into its parent's tree at child slot `child_index - 1`.  `ts` holds
the per-entry trees (`queue_decode[r]["t"]`); the entry list `es` sits at `ts`
positions `base, base + 1, ...`, and an entry whose 1-based absolute queue
position of parent is `parent` lives at `ts` position `parent - 1 - δ`
(at the top call `δ = 0` and `base = 0`, so positions are absolute).  The
recursion processes the later entries first, which is exactly the source's
`for i in range(len(queue_decode)-1, 0, -1)` order; the guard `δ + 1 ≤ parent`
skips exactly the root entry (`parent = 0`), which the source's loop never
visits. -/
def asmFrom (δ base : ℕ) (es : List QEntry) (ts : List PTree) : List PTree :=
  match es with
  | [] => ts
  | e :: rest =>
    let ts1 := asmFrom δ (base + 1) rest ts
    if δ + 1 ≤ e.parent then
      ts1.set (e.parent - 1 - δ)
        (setChild (ts1.getD (e.parent - 1 - δ) default) (e.childIndex - 1) (ts1.getD base default))
    else ts1

/-- Proof helper: the same walk as `asmFrom`, but each entry attaches its
*original* subtree (`e.tree`) instead of the current value of its `ts` slot.
The round-trip proof shows the two walks agree on the queue produced by
`bfsTail`. -/
def descWrites (δ : ℕ) (ps : List QEntry) (ts : List PTree) : List PTree :=
  match ps with
  | [] => ts
  | e :: rest =>
    let ts1 := descWrites δ rest ts
    if δ + 1 ≤ e.parent then
      ts1.set (e.parent - 1 - δ)
        (setChild (ts1.getD (e.parent - 1 - δ) default) (e.childIndex - 1) e.tree)
    else ts1

/-- Reassembling a linearized tree: every queue entry starts from its flat
token tree, the assembly walk runs, and the root entry's tree is the result
(`queue_decode[0]["t"]`). -/
def reassemble (T : PTree) : PTree :=
  (asmFrom 0 0 (linearize T) ((linearize T).map fun e => flatTree e.tree)).getD 0 default

theorem length_asmFrom (δ base : ℕ) (es : List QEntry) (ts : List PTree) :
    (asmFrom δ base es ts).length = ts.length := by
  induction es generalizing base with
  | nil => rfl
  | cons e rest ih =>
    rw [asmFrom]
    split
    · rw [List.length_set, ih]
    · exact ih (base + 1)

theorem length_descWrites (δ : ℕ) (ps : List QEntry) (ts : List PTree) :
    (descWrites δ ps ts).length = ts.length := by
  induction ps with
  | nil => rfl
  | cons e rest ih =>
    rw [descWrites]
    split
    · rw [List.length_set, ih]
    · exact ih

theorem descWrites_append (δ : ℕ) (A B : List QEntry) (ts : List PTree) :
    descWrites δ (A ++ B) ts = descWrites δ A (descWrites δ B ts) := by
  induction A with
  | nil => rfl
  | cons e r ih =>
    rw [List.cons_append, descWrites, ih, descWrites]

theorem descWrites_getD_of_targets_ne (δ : ℕ) (A : List QEntry) (ts : List PTree) (j : ℕ)
    (h : ∀ e ∈ A, δ + 1 ≤ e.parent → e.parent - 1 - δ ≠ j) :
    (descWrites δ A ts).getD j default = ts.getD j default := by
  induction A with
  | nil => rfl
  | cons e r ih =>
    rw [descWrites]
    have hr : ∀ e' ∈ r, δ + 1 ≤ e'.parent → e'.parent - 1 - δ ≠ j :=
      fun e' he' => h e' (List.mem_cons_of_mem _ he')
    split
    · rw [getD_set_ne _ _ _ _ _ (h e (List.mem_cons_self _ _) (by assumption))]
      exact ih hr
    · exact ih hr

theorem descWrites_congr_below (δ m : ℕ) (A : List QEntry) :
    ∀ (X Y : List PTree),
      m ≤ X.length → m ≤ Y.length →
      (∀ j < m, X.getD j default = Y.getD j default) →
      (∀ e ∈ A, δ + 1 ≤ e.parent → e.parent - 1 - δ < m) →
      ∀ j < m, (descWrites δ A X).getD j default = (descWrites δ A Y).getD j default := by
  induction A with
  | nil => intro X Y _ _ hagree _ j hj; exact hagree j hj
  | cons e r ih =>
    intro X Y hX hY hagree htgt j hj
    have hr : ∀ e' ∈ r, δ + 1 ≤ e'.parent → e'.parent - 1 - δ < m :=
      fun e' he' => htgt e' (List.mem_cons_of_mem _ he')
    have hrec : ∀ j' < m, (descWrites δ r X).getD j' default = (descWrites δ r Y).getD j' default :=
      ih X Y hX hY hagree hr
    rw [descWrites, descWrites]
    split
    · have htl : e.parent - 1 - δ < m := htgt e (List.mem_cons_self _ _) (by assumption)
      have hval : (descWrites δ r X).getD (e.parent - 1 - δ) default
          = (descWrites δ r Y).getD (e.parent - 1 - δ) default := hrec _ htl
      rw [hval]
      by_cases hje : j = e.parent - 1 - δ
      · subst hje
        rw [getD_set_self _ _ _ _ (by rw [length_descWrites]; omega),
          getD_set_self _ _ _ _ (by rw [length_descWrites]; omega)]
      · rw [getD_set_ne _ _ _ _ _ (fun hc => hje hc.symm),
          getD_set_ne _ _ _ _ _ (fun hc => hje hc.symm)]
        exact hrec j hj
    · exact hrec j hj

theorem set_append_length {α : Type _} (l₁ l₂ : List α) (a b : α) :
    (l₁ ++ a :: l₂).set l₁.length b = l₁ ++ b :: l₂ := by
  induction l₁ with
  | nil => rfl
  | cons x xs ih =>
    simp only [List.cons_append, List.length_cons, List.set]
    rw [show xs.append (a :: l₂) = xs ++ a :: l₂ from rfl, ih]

theorem childrenEntriesFrom_parent (cs : List PChild) :
    ∀ (k pos : ℕ), ∀ e ∈ childrenEntriesFrom k cs pos, e.parent = pos := by
  induction cs with
  | nil => intro k pos e h; cases h
  | cons c rest ih =>
    intro k pos e h
    cases c with
    | tok n => exact ih (k + 1) pos e h
    | sub t =>
      rw [childrenEntriesFrom] at h
      rcases List.mem_cons.mp h with h | h
      · rw [h]
      · exact ih (k + 1) pos e h

/-- Replaying the attachments of one node's child entries onto its flat tree
restores the original children list: every subtree child is written back into
its recorded slot. -/
theorem descWrites_restore (δ b : ℕ) :
    ∀ (cs pre : List PChild) (ts : List PTree),
      b < ts.length →
      ts.getD b default = .node (pre ++ (flatTokens cs).map .tok) →
      (descWrites δ (childrenEntriesFrom pre.length cs (δ + b + 1)) ts).getD b default
        = .node (pre ++ cs) := by
  intro cs
  induction cs with
  | nil =>
    intro pre ts _ hflat
    rw [childrenEntriesFrom, descWrites]
    simpa [flatTokens] using hflat
  | cons c rest ih =>
    intro pre ts hb hflat
    cases c with
    | tok n =>
      rw [childrenEntriesFrom]
      have hlen : pre.length + 1 = (pre ++ [PChild.tok n]).length := by simp
      have hflat' : ts.getD b default
          = .node ((pre ++ [PChild.tok n]) ++ (flatTokens rest).map .tok) := by
        simpa [flatTokens, List.append_assoc] using hflat
      rw [hlen, ih (pre ++ [PChild.tok n]) ts hb hflat']
      simp [List.append_assoc]
    | sub t =>
      rw [childrenEntriesFrom, descWrites]
      have hlen : pre.length + 1 = (pre ++ [PChild.tok ntTok]).length := by simp
      have hflat' : ts.getD b default
          = .node ((pre ++ [PChild.tok ntTok]) ++ (flatTokens rest).map .tok) := by
        simpa [flatTokens, List.append_assoc] using hflat
      have hrec := ih (pre ++ [PChild.tok ntTok]) ts hb hflat'
      rw [hlen]
      have hguard : δ + 1 ≤ δ + b + 1 := by omega
      rw [if_pos hguard]
      have htgt : δ + b + 1 - 1 - δ = b := by omega
      rw [htgt]
      rw [getD_set_self _ _ _ _ (by rw [length_descWrites]; omega)]
      rw [hrec]
      show PTree.node (((pre ++ [PChild.tok ntTok]) ++ rest).set
        ((pre ++ [PChild.tok ntTok]).length - 1) (.sub t)) = _
      have : (pre ++ [PChild.tok ntTok]).length - 1 = pre.length := by simp
      rw [this]
      have : (pre ++ [PChild.tok ntTok]) ++ rest = pre ++ PChild.tok ntTok :: rest := by
        simp
      rw [this, set_append_length]

theorem getD_map_flat_of_get? (l : List QEntry) :
    ∀ (r : ℕ) (e : QEntry), l.get? r = some e →
      (l.map fun e' => flatTree e'.tree).getD r default = flatTree e.tree := by
  induction l with
  | nil => intro r e h; cases h
  | cons x xs ih =>
    intro r e h
    cases r with
    | zero => cases h; rfl
    | succ n => exact ih n e h

theorem PTree.node_children (t : PTree) : PTree.node t.children = t := by
  cases t with
  | node cs => rfl

theorem asmFrom_cons (δ base : ℕ) (e : QEntry) (rest : List QEntry) (ts : List PTree) :
    asmFrom δ base (e :: rest) ts
      = if δ + 1 ≤ e.parent then
          (asmFrom δ (base + 1) rest ts).set (e.parent - 1 - δ)
            (setChild ((asmFrom δ (base + 1) rest ts).getD (e.parent - 1 - δ) default)
              (e.childIndex - 1) ((asmFrom δ (base + 1) rest ts).getD base default))
        else asmFrom δ (base + 1) rest ts := rfl

theorem descWrites_cons (δ : ℕ) (e : QEntry) (rest : List QEntry) (ts : List PTree) :
    descWrites δ (e :: rest) ts
      = if δ + 1 ≤ e.parent then
          (descWrites δ rest ts).set (e.parent - 1 - δ)
            (setChild ((descWrites δ rest ts).getD (e.parent - 1 - δ) default)
              (e.childIndex - 1) e.tree)
        else descWrites δ rest ts := rfl

/-- Core of the round-trip proof.  Running the assembly walk over the part of
the queue generated from pending entries `P` (whose first entry sits at queue
position `δ + b`, at `ts` position `b`) changes the `ts` positions below `b`
exactly as if each entry of `P` had attached its *original* subtree: every
entry's accumulated tree is fully rebuilt by the time it is attached into its
parent. -/
theorem asm_eq_descWrites_below (m : ℕ) :
    ∀ (P : List QEntry), pendingSize P ≤ m →
    ∀ (δ b : ℕ) (ts : List PTree),
      (∀ e ∈ P, e.parent ≤ δ + b) →
      b + (bfsTail (δ + b) P).length ≤ ts.length →
      (∀ r e, (bfsTail (δ + b) P).get? r = some e → ts.getD (b + r) default = flatTree e.tree) →
      ∀ j < b, (asmFrom δ b (bfsTail (δ + b) P) ts).getD j default
        = (descWrites δ P ts).getD j default := by
  induction m with
  | zero =>
    intro P hm
    cases P with
    | nil => intro δ b ts _ _ _ j _; rw [bfsTail_nil]; rfl
    | cons e rest =>
      exfalso
      rw [pendingSize_cons, size_eq_children] at hm
      omega
  | succ m ih =>
    intro P hm
    cases P with
    | nil => intro δ b ts _ _ _ j _; rw [bfsTail_nil]; rfl
    | cons e rest =>
      intro δ b ts hpar hlen hflat j hj
      set ch := childrenEntries e.tree.children (δ + b + 1) with hch
      have hmrec : pendingSize (rest ++ ch) ≤ m := by
        have := pendingSize_cons_lt e rest (δ + b + 1)
        rw [hch]
        omega
      have hcons : bfsTail (δ + b) (e :: rest)
          = e :: bfsTail (δ + b + 1) (rest ++ ch) := bfsTail_cons _ _ _
      set Q2 := bfsTail (δ + b + 1) (rest ++ ch) with hQ2
      have hQ2' : bfsTail (δ + (b + 1)) (rest ++ ch) = Q2 := by
        rw [hQ2, show δ + (b + 1) = δ + b + 1 from rfl]
      -- facts about the entries
      have hchpar : ∀ e' ∈ ch, e'.parent = δ + b + 1 := by
        intro e' he'
        exact childrenEntriesFrom_parent e.tree.children 0 (δ + b + 1) e' he'
      have hrestpar : ∀ e' ∈ rest, e'.parent ≤ δ + b :=
        fun e' he' => hpar e' (List.mem_cons_of_mem _ he')
      have hrestpar' : ∀ e' ∈ rest ++ ch, e'.parent ≤ δ + (b + 1) := by
        intro e' he'
        rcases List.mem_append.mp he' with h | h
        · have := hrestpar e' h; omega
        · rw [hchpar e' h]; omega
      have hblen : b < ts.length := by
        rw [hcons] at hlen
        simp only [List.length_cons] at hlen
        omega
      have hlen' : (b + 1) + (bfsTail (δ + (b + 1)) (rest ++ ch)).length ≤ ts.length := by
        rw [hQ2']
        rw [hcons] at hlen
        simp only [List.length_cons] at hlen
        omega
      have hflat' : ∀ r e', (bfsTail (δ + (b + 1)) (rest ++ ch)).get? r = some e' →
          ts.getD ((b + 1) + r) default = flatTree e'.tree := by
        intro r e' h
        rw [hQ2'] at h
        have : (e :: Q2).get? (r + 1) = some e' := by simpa using h
        have := hflat (r + 1) e' (by rw [hcons]; exact this)
        rwa [show b + (r + 1) = b + 1 + r by omega] at this
      -- inner agreement from the induction hypothesis
      have hinner : ∀ j' < b + 1, (asmFrom δ (b + 1) Q2 ts).getD j' default
          = (descWrites δ (rest ++ ch) ts).getD j' default := by
        intro j' hj'
        have := ih (rest ++ ch) hmrec δ (b + 1) ts hrestpar' hlen' hflat' j' hj'
        rwa [hQ2'] at this
      set ts1 := asmFrom δ (b + 1) Q2 ts with hts1
      -- the child entries of `e` write only at position b
      have hchtgt : ∀ e' ∈ ch, δ + 1 ≤ e'.parent → e'.parent - 1 - δ = b := by
        intro e' he' _
        rw [hchpar e' he']
        omega
      have hch_other : ∀ j', j' ≠ b →
          (descWrites δ ch ts).getD j' default = ts.getD j' default := by
        intro j' hne
        exact descWrites_getD_of_targets_ne δ ch ts j'
          (fun e' he' hg => by rw [hchtgt e' he' hg]; exact fun hc => hne hc.symm)
      -- the rest entries write only below b
      have hresttgt : ∀ e' ∈ rest, δ + 1 ≤ e'.parent → e'.parent - 1 - δ < b := by
        intro e' he' hg
        have := hrestpar e' he'
        omega
      -- (I): ts1 agrees with descWrites δ rest ts below b
      have hI : ∀ j' < b, ts1.getD j' default = (descWrites δ rest ts).getD j' default := by
        intro j' hj'
        rw [hts1]
        rw [hinner j' (by omega), descWrites_append]
        exact descWrites_congr_below δ b rest (descWrites δ ch ts) ts
          (by rw [length_descWrites]; omega) (by omega)
          (fun j'' hj'' => hch_other j'' (by omega)) hresttgt j' hj'
      -- (II): ts1 holds the fully rebuilt tree of `e` at position b
      have hII : ts1.getD b default = e.tree := by
        rw [hts1, hinner b (by omega), descWrites_append]
        rw [descWrites_getD_of_targets_ne δ rest _ b
          (fun e' he' hg => by have := hresttgt e' he' hg; omega)]
        have hflat0 : ts.getD b default = flatTree e.tree := by
          have := hflat 0 e (by rw [hcons]; rfl)
          simpa using this
        have := descWrites_restore δ b e.tree.children [] ts hblen
          (by simpa [flatTree] using hflat0)
        simp only [List.nil_append, List.length_nil] at this
        rw [hch, childrenEntries, this, PTree.node_children]
      -- assemble the two sides
      rw [hcons, asmFrom_cons, descWrites_cons]
      rw [← hts1]
      by_cases hg : δ + 1 ≤ e.parent
      · rw [if_pos hg, if_pos hg]
        have htlt : e.parent - 1 - δ < b := by
          have := hpar e (List.mem_cons_self _ _)
          omega
        rw [hI (e.parent - 1 - δ) htlt, hII]
        by_cases hje : j = e.parent - 1 - δ
        · subst hje
          rw [getD_set_self _ _ _ _ (by rw [hts1, length_asmFrom]; omega),
            getD_set_self _ _ _ _ (by rw [length_descWrites]; omega)]
        · rw [getD_set_ne _ _ _ _ _ (fun hc => hje hc.symm),
            getD_set_ne _ _ _ _ _ (fun hc => hje hc.symm)]
          exact hI j hj
      · rw [if_neg hg, if_neg hg]
        exact hI j hj

/-- **C7.** For every tree `T`, linearizing `T` into per-level queue entries
(breadth-first flatten as in `get_dec_batch`: non-terminal children tagged
with the placeholder id and enqueued, terminal children keeping their
vocabulary id) and then reconstructing by the assembly step of `translate`
(walking the queue from the last-appended entry back to the first, excluding
the root, attaching each entry's subtree into its parent's child slot at
`child_index`, the root entry's tree being the result) yields a tree
structurally identical to `T`. -/
theorem c7_linearize_reassemble_roundtrip (T : PTree) : reassemble T = T := by
  have hlin : linearize T = rootEntry T :: bfsTail 1 (childrenEntries T.children 1) := by
    simpa [linearize, rootEntry] using bfsTail_cons 0 (rootEntry T) []
  rw [reassemble]
  set ts := (linearize T).map (fun e => flatTree e.tree) with hts
  set P := childrenEntries T.children 1 with hPdef
  have hpar : ∀ e ∈ P, e.parent ≤ 1 := by
    intro e he
    exact le_of_eq (childrenEntriesFrom_parent T.children 0 1 e he)
  have hlen : 1 + (bfsTail 1 P).length ≤ ts.length := by
    rw [hts, List.length_map, hlin, List.length_cons]
    omega
  have hflat : ∀ r e', (bfsTail 1 P).get? r = some e' →
      ts.getD (1 + r) default = flatTree e'.tree := by
    intro r e' h
    have h2 : (linearize T).get? (r + 1) = some e' := by
      rw [hlin]
      simpa using h
    have h3 := getD_map_flat_of_get? (linearize T) (r + 1) e' h2
    rw [hts, show 1 + r = r + 1 by omega]
    exact h3
  have key := asm_eq_descWrites_below (pendingSize P) P le_rfl 0 1 ts hpar hlen hflat 0
    (by omega)
  simp only [show (0 : ℕ) + 1 = 1 from rfl] at key
  have hts0 : ts.getD 0 default = flatTree T := by
    rw [hts, hlin]
    rfl
  have htslen : 0 < ts.length := by
    rw [hts, List.length_map, hlin, List.length_cons]
    omega
  have hrestore := descWrites_restore 0 0 T.children [] ts htslen
    (by simpa [flatTree] using hts0)
  simp only [List.nil_append, List.length_nil] at hrestore
  rw [hlin, asmFrom_cons, if_neg (by simp [rootEntry])]
  rw [key]
  rw [show descWrites 0 P ts = descWrites 0 (childrenEntriesFrom 0 T.children (0 + 0 + 1)) ts
    from rfl]
  rw [hrestore, PTree.node_children]

/-! ### The decoding step (`decode_step`, `TreeDecodingUnit`) -/

/-- The concatenated step input built by `TreeDecodingUnit.forward`
(lines 554-558): the embedded-and-dropped-out token together with the parent
hidden state, plus the sibling state when sibling feeding is enabled.  The
constructor records which tensors were concatenated; the numeric content is
abstract. -/
inductive StepInput (ε σ : Type) where
  | withSib (emb : ε) (parentH : σ) (sibling : σ)
  | noSib (emb : ε) (parentH : σ)

/-- The ways a decoding step or the training pass can fail.
`catNoneSibling`: `torch.cat((src_emb, parent_h, sibling_state), 1)` with
`sibling_state = None` raises a `TypeError` (`TreeDecodingUnit.forward`,
line 555).  `nameErrorContext`: with separate attention the branch at
line 327 only `pass`es, so `torch.cat((context_vector, rnn_state_h), 1)` at
line 336 reads an unassigned variable.  `notImplementedPooling`: the
`raise NotImplementedError()` of line 188.  `keyErrorSeqLen`: the nested
`dec_state` dict holds step keys `0..max_dec_seq_length` only (lines 206-209),
so storing a step state past that bound raises a `KeyError`.  `loopFuel` is an
artifact of the embedding (the level loop is given explicit fuel); the
theorems below show it is never returned when the fuel bound used by
`runForwardPass` is supplied. -/
inductive DecErr : Type where
  | catNoneSibling
  | nameErrorContext
  | notImplementedPooling
  | keyErrorSeqLen
  | loopFuel
  deriving DecidableEq

/-- The learned content of `TreeDecodingUnit` (lines 538-560): an embedding
lookup composed with input dropout, and the LSTM cell, both abstract. -/
structure TreeUnit (ε σ : Type) where
  useSibling : Bool
  embedDrop : ℕ → ε
  lstm : StepInput ε σ → σ × σ → σ × σ

/-- `_build_rnn` (lines 483-488): the `rnn_type` argument is accepted but
ignored — a `TreeDecodingUnit` is returned for every value of it, with no
check and no error for unsupported types. -/
def buildRnn (rnnType : String) (unit : TreeUnit ε σ) : TreeUnit ε σ := unit

/-- The decoder state assembled by `StdTreeDecoder.__init__` that the decoding
step reads: the `separate_attn` flag, the vocabulary data used by
`_filter_oov`, the recurrent unit, and the learned attention / output /
criterion maps (abstract collaborators). -/
structure DecModel (ε σ π μ α : Type) where
  separateAttn : Bool
  vocabSize : ℕ
  unkIdx : ℕ
  rnn : TreeUnit ε σ
  attention : σ → μ → σ × α
  outLayer : σ → σ → π
  argmax : π → ℕ

/-- `StdTreeDecoder.__init__` (lines 80-132): records
`separate_attn = (attn_type != "uniform")` (line 116) and builds the
recurrent unit through `_build_rnn` (line 131).  Construction never fails,
whatever `attn_type` and `rnn_type` are. -/
def mkStdTreeDecoder (attnType rnnType : String) (vocabSize unkIdx : ℕ)
    (unit : TreeUnit ε σ) (attention : σ → μ → σ × α) (outLayer : σ → σ → π)
    (argmax : π → ℕ) : DecModel ε σ π μ α :=
  { separateAttn := attnType != "uniform"
    vocabSize := vocabSize
    unkIdx := unkIdx
    rnn := buildRnn rnnType unit
    attention := attention
    outLayer := outLayer
    argmax := argmax }

/-- `_filter_oov` (lines 276-280): token ids at or above the vocabulary size
are remapped to the unknown-token id before the embedding lookup. -/
def filterOov (m : DecModel ε σ π μ α) (t : ℕ) : ℕ :=
  if m.vocabSize ≤ t then m.unkIdx else t

/-- `TreeDecodingUnit.forward` (lines 550-560): embed and drop out the input
token, concatenate it with the parent hidden state — and, when sibling
feeding is enabled, with the sibling state — then apply the LSTM cell.  The
concatenation with `sibling_state = None` is the Python `TypeError`. -/
def rnnForward (u : TreeUnit ε σ) (inputSrc : ℕ) (prevC prevH parentH : σ)
    (siblingState : Option σ) : Except DecErr (σ × σ × StepInput ε σ) :=
  let srcEmb := u.embedDrop inputSrc
  if u.useSibling then
    match siblingState with
    | none => .error .catNoneSibling
    | some sib =>
      let inp := StepInput.withSib srcEmb parentH sib
      let ch := u.lstm inp (prevC, prevH)
      .ok (ch.1, ch.2, inp)
  else
    let inp := StepInput.noSib srcEmb parentH
    let ch := u.lstm inp (prevC, prevH)
    .ok (ch.1, ch.2, inp)

/-- `decode_step` (lines 282-361) in the `use_copy = False` configuration:
OOV-filter the input, run the recurrent unit, then compute the attention
context — but only in the `uniform` branch; with `separate_attn` the branch
`pass`es (line 328) and the following concatenation reads the unassigned
`context_vector`.  The projection + tanh + dropout + linear + softmax chain of
lines 335-337 and 359 is folded into the abstract `outLayer`. -/
def decodeStepM (m : DecModel ε σ π μ α) (mem : μ) (input : ℕ) (state : σ × σ)
    (parentState : σ) (sibling : Option σ) : Except DecErr (π × (σ × σ) × α) :=
  match rnnForward m.rnn (filterOov m input) state.1 state.2 parentState sibling with
  | .error e => .error e
  | .ok (c, h, _raw) =>
    if m.separateAttn then .error .nameErrorContext
    else
      let ctxScores := m.attention h mem
      .ok (m.outLayer ctxScores.1 h, (c, h), ctxScores.2)

/-! ### The teacher-forced training pass (`_run_forward_pass`) -/

/-- The sibling lookup of `_run_forward_pass` (lines 242-249) for one tree:
scan every queue list index `q_index < cur_index - 1`; the *last* match with
the same parent and a smaller child index wins.  The source then reads the
terminal state `dec_state[sibling_index][dec_batch[sibling_index].size(1)-1]`,
using the matched entry's 0-based list index as a 1-based `dec_state` queue
position; the value is stored in a local `sibling_state` that is never passed
to `decode_step`. -/
def trainSiblingIndex (queue : List QEntry) (curIndex : ℕ) : Option ℕ :=
  (List.range queue.length).foldl
    (fun found qIndex =>
      match queue.get? qIndex, queue.get? (curIndex - 1) with
      | some eq, some ec =>
        if qIndex < curIndex - 1 ∧ eq.parent = ec.parent ∧ eq.childIndex < ec.childIndex then
          some qIndex
        else found
      | _, _ => found)
    none

/-- One row of `dec_batch` for a batch of one tree (`get_dec_batch`,
lines 593-606): width `len(w_list) + 2`.  A non-empty `w_list` is written at
positions `1..`, position 0 receives the start id (1 at the root level, the id
of `'('` otherwise) and the last position the end id 2; for an empty `w_list`
the whole row keeps its zero initialization. -/
def decRow (lparen level : ℕ) (cs : List PChild) : List ℕ :=
  match flatTokens cs with
  | [] => [0, 0]
  | ws => (if level = 1 then 1 else lparen) :: ws ++ [2]

/-- Everything recorded while one queue position (level) of the training pass
runs: `states.get i` is `dec_state[cur_index][i]` (index 0 is the seeded
state), `fed.get i` the token fed at step `i`, `preds.get i` the prediction of
step `i`, and `lossSum` the running value of the `loss` accumulator after this
level (the loss lives in an abstract type `Λ`, since float arithmetic is an
external collaborator). -/
structure LevelOut (σ π Λ : Type) where
  states : List (σ × σ)
  fed : List ℕ
  preds : List π
  lossSum : Λ
  deriving DecidableEq

/-- The training context: the decoder, the encoder memory, the zero state used
for fresh tensors, the id of `'('`, the teacher-forcing ratio, the per-level
per-step `random.random()` draws, the two truncation bounds, and the loss
collaborators (`self.criterion`, the float `+` of `loss += ...` and the float
`/` of `loss / tgt_batch_size`), over an abstract loss type `Λ`. -/
structure TrainCtx (ε σ π μ α Λ : Type) where
  m : DecModel ε σ π μ α
  mem : μ
  zero : σ
  lparen : ℕ
  ratio : ℚ
  coin : ℕ → ℕ → ℚ
  maxDepth : ℕ
  maxSeq : ℕ
  crit : π → ℕ → Λ
  lossInit : Λ
  lossAdd : Λ → Λ → Λ
  lossDiv : Λ → ℕ → Λ

/-- The token fed at step `i` (lines 253-257): `dec_batch[cur_index][:, i]`
when the coin `random.random() < teacher_force_ratio` fires or `i = 0`, else
the argmax of the previous step's prediction (`pp`, always present for
`i > 0`; the `none` fallback is unreachable). -/
def stepInputWord (ctx : TrainCtx ε σ π μ α Λ) (coin : ℕ → ℚ) (row : List ℕ) (i : ℕ)
    (pp : Option π) : ℕ :=
  let teacherForce : Bool := decide (coin i < ctx.ratio)
  if teacherForce = false ∧ 0 < i then
    match pp with
    | some pr => ctx.m.argmax pr
    | none => 0
  else row.getD i 0

/-- The token loop of one level (lines 252-271) for a batch of one tree,
iterating over the step indices `range(dec_batch[cur_index].size(1) - 1)`:
`decode_step` is invoked *without* a `sibling_state` argument, so it receives
`None` (lines 258-265); the new state is stored at step key `i + 1` (a
`KeyError` past `max_dec_seq_length`), and the criterion of the prediction
against `dec_batch[cur_index][:, i+1]` is accumulated into the running
loss. -/
def tokenLoop (ctx : TrainCtx ε σ π μ α Λ) (parentH : σ) (coin : ℕ → ℚ) (row : List ℕ) :
    List ℕ → σ × σ → Option π → LevelOut σ π Λ → Except DecErr (LevelOut σ π Λ)
  | [], _, _, acc => .ok acc
  | i :: restSteps, st, prevPred, acc =>
    let inputWord : ℕ := stepInputWord ctx coin row i prevPred
    match decodeStepM ctx.m ctx.mem inputWord st parentH none with
    | .error e => .error e
    | .ok (pred, st', _scores) =>
      if ctx.maxSeq < i + 1 then .error .keyErrorSeqLen
      else
        tokenLoop ctx parentH coin row restSteps st' (some pred)
          { states := acc.states ++ [st']
            fed := acc.fed ++ [inputWord]
            preds := acc.preds ++ [pred]
            lossSum := ctx.lossAdd acc.lossSum (ctx.crit pred (row.getD (i + 1) 0)) }

/-- The seeding of `dec_state[cur_index][0]` (lines 214-240) for a batch of
one tree: the root level copies the pooled graph cell and hidden states
(lines 225-228); every later level copies the parent level's state at step
index `child_index` (`dec_state[par_index][child_index]`, lines 237-240).
`acc` holds the levels already run (`acc.get (p-1)` is level `p`); the
zero-state fallbacks correspond to the freshly allocated zero tensors that
would be read if the lookups missed (unreachable for a well-formed queue). -/
def seedOf (ctx : TrainCtx ε σ π μ α Λ) (graphCell graphHidden : σ) (queue : List QEntry)
    (acc : List (LevelOut σ π Λ)) (cur : ℕ) : σ × σ :=
  if cur = 1 then (graphCell, graphHidden)
  else
    match queue.get? (cur - 1) with
    | some e =>
      match acc.get? (e.parent - 1) with
      | some lv => lv.states.getD e.childIndex (ctx.zero, ctx.zero)
      | none => (ctx.zero, ctx.zero)
    | none => (ctx.zero, ctx.zero)

/-- `dec_batch[cur_index]` for a batch of one tree. -/
def rowOf (lparen : ℕ) (queue : List QEntry) (cur : ℕ) : List ℕ :=
  match queue.get? (cur - 1) with
  | some e => decRow lparen cur e.tree.children
  | none => [0, 0]

/-- One iteration of the level loop (lines 214-271) for a batch of one tree:
seed `dec_state[cur_index][0]`, then run the token loop with
`parent_h = dec_state[cur_index][0][2]` (line 251). -/
def runLevel (ctx : TrainCtx ε σ π μ α Λ) (graphCell graphHidden : σ) (queue : List QEntry)
    (acc : List (LevelOut σ π Λ)) (cur : ℕ) (loss : Λ) : Except DecErr (LevelOut σ π Λ) :=
  let seed := seedOf ctx graphCell graphHidden queue acc cur
  let row := rowOf ctx.lparen queue cur
  tokenLoop ctx seed.2 (ctx.coin cur) row (List.range (row.length - 1)) seed none
    { states := [seed], fed := [], preds := [], lossSum := loss }

/-- The level loop of `_run_forward_pass` (lines 211-272):
`while cur_index <= max_index`, with an immediate break once
`cur_index > max_dec_tree_depth`.  The loop is written with explicit fuel;
`runForwardPass` passes `max_index + 1`, which the theorems show is always
enough. -/
def runLevels (ctx : TrainCtx ε σ π μ α Λ) (graphCell graphHidden : σ)
    (queue : List QEntry) (maxIndex : ℕ) :
    ℕ → ℕ → List (LevelOut σ π Λ) → Λ → Except DecErr (List (LevelOut σ π Λ) × Λ)
  | fuel, cur, acc, loss =>
    if cur ≤ maxIndex then
      if ctx.maxDepth < cur then .ok (acc, loss)
      else
        match fuel with
        | 0 => .error .loopFuel
        | fuel' + 1 =>
          match runLevel ctx graphCell graphHidden queue acc cur loss with
          | .error e => .error e
          | .ok lv => runLevels ctx graphCell graphHidden queue maxIndex
              fuel' (cur + 1) (acc ++ [lv]) lv.lossSum
    else .ok (acc, loss)

/-- The pooling dispatch of `_run_forward_pass` (lines 180-193): with no
graph-level embedding, the node embeddings are pooled with the configured
strategy into one vector used as both cell and hidden state; any other
strategy raises `NotImplementedError`.  An explicitly given graph-level
embedding is unpacked as `(cell, hidden)`. -/
def graphPooledStates (strategy : String) (maxPool minPool meanPool : μ → σ)
    (graphLevelEmbedding : Option (σ × σ)) (mem : μ) : Except DecErr (σ × σ) :=
  match graphLevelEmbedding with
  | none =>
    if strategy = "max" then .ok (maxPool mem, maxPool mem)
    else if strategy = "min" then .ok (minPool mem, minPool mem)
    else if strategy = "mean" then .ok (meanPool mem, meanPool mem)
    else .error .notImplementedPooling
  | some ch => .ok ch

/-- The result of the training pass: the per-level traces and the returned
loss. -/
structure TrainOut (σ π Λ : Type) where
  levels : List (LevelOut σ π Λ)
  loss : Λ
  deriving DecidableEq

/-- `_run_forward_pass` (lines 134-274) for a batch of one tree: resolve the
graph-level cell/hidden states (pooling the node embeddings if none are
given), overwrite `rnn_node_embedding` with zeros (line 195; the argument is
dead from that point on), linearize the target tree into the queue and the
per-level `dec_batch` rows, run the level loop, and divide the loss by the
batch size (here 1). -/
def runForwardPass (ctx : TrainCtx ε σ π μ α Λ) (poolStrategy : String)
    (maxPool minPool meanPool : μ → σ) (graphLevelEmbedding : Option (σ × σ))
    (rnnNodeEmbedding : μ) (T : PTree) : Except DecErr (TrainOut σ π Λ) :=
  match graphPooledStates poolStrategy maxPool minPool meanPool graphLevelEmbedding ctx.mem with
  | .error e => .error e
  | .ok gch =>
    -- line 195: `rnn_node_embedding = torch.zeros_like(graph_node_embedding, ...)`;
    -- the passed-in `rnnNodeEmbedding` is never read after this point.
    let queue := linearize T
    let maxIndex := queue.length
    match runLevels ctx gch.1 gch.2 queue maxIndex (maxIndex + 1) 1 [] ctx.lossInit with
    | .error e => .error e
    | .ok out => .ok ⟨out.1, ctx.lossDiv out.2 1⟩

/-! ### Error-free unfolding of the training pass

With sibling feeding disabled and uniform attention, every `decode_step` of
the training pass succeeds; the following pure functions compute the same
traces, and the equivalence lemmas show the `Except`-level functions return
`.ok` of them. -/

/-- The successful value of `decodeStepM` when sibling feeding is off and the
attention is uniform. -/
def decodeStepOk (m : DecModel ε σ π μ α) (mem : μ) (input : ℕ) (state : σ × σ)
    (parentState : σ) : π × (σ × σ) × α :=
  let inp := StepInput.noSib (m.rnn.embedDrop (filterOov m input)) parentState
  let ch := m.rnn.lstm inp state
  let ctxScores := m.attention ch.2 mem
  (m.outLayer ctxScores.1 ch.2, ch, ctxScores.2)

theorem decodeStepM_eq_ok (m : DecModel ε σ π μ α) (mem : μ) (input : ℕ) (state : σ × σ)
    (parentState : σ) (sibling : Option σ)
    (hsib : m.rnn.useSibling = false) (hattn : m.separateAttn = false) :
    decodeStepM m mem input state parentState sibling
      = .ok (decodeStepOk m mem input state parentState) := by
  rw [decodeStepM, rnnForward.eq_def, hsib]
  simp only [Bool.false_eq_true, if_false, hattn]
  rfl

/-- Pure version of `tokenLoop` (identical recursion, no failure cases). -/
def tokenRun (ctx : TrainCtx ε σ π μ α Λ) (parentH : σ) (coin : ℕ → ℚ) (row : List ℕ) :
    List ℕ → σ × σ → Option π → LevelOut σ π Λ → LevelOut σ π Λ
  | [], _, _, acc => acc
  | i :: restSteps, st, prevPred, acc =>
    let inputWord : ℕ := stepInputWord ctx coin row i prevPred
    let out := decodeStepOk ctx.m ctx.mem inputWord st parentH
    tokenRun ctx parentH coin row restSteps out.2.1 (some out.1)
      { states := acc.states ++ [out.2.1]
        fed := acc.fed ++ [inputWord]
        preds := acc.preds ++ [out.1]
        lossSum := ctx.lossAdd acc.lossSum (ctx.crit out.1 (row.getD (i + 1) 0)) }

theorem tokenRun_cons (ctx : TrainCtx ε σ π μ α Λ) (parentH : σ) (coin : ℕ → ℚ)
    (row : List ℕ) (i : ℕ) (rest : List ℕ) (st : σ × σ) (pp : Option π)
    (acc : LevelOut σ π Λ) :
    tokenRun ctx parentH coin row (i :: rest) st pp acc
      = tokenRun ctx parentH coin row rest
          (decodeStepOk ctx.m ctx.mem (stepInputWord ctx coin row i pp) st parentH).2.1
          (some (decodeStepOk ctx.m ctx.mem (stepInputWord ctx coin row i pp) st parentH).1)
          { states := acc.states
              ++ [(decodeStepOk ctx.m ctx.mem (stepInputWord ctx coin row i pp) st parentH).2.1]
            fed := acc.fed ++ [stepInputWord ctx coin row i pp]
            preds := acc.preds
              ++ [(decodeStepOk ctx.m ctx.mem (stepInputWord ctx coin row i pp) st parentH).1]
            lossSum := ctx.lossAdd acc.lossSum
              (ctx.crit (decodeStepOk ctx.m ctx.mem (stepInputWord ctx coin row i pp) st
                parentH).1 (row.getD (i + 1) 0)) } := rfl

theorem tokenLoop_eq_tokenRun (ctx : TrainCtx ε σ π μ α Λ) (parentH : σ) (coin : ℕ → ℚ)
    (row : List ℕ) (hsib : ctx.m.rnn.useSibling = false) (hattn : ctx.m.separateAttn = false) :
    ∀ (steps : List ℕ) (st : σ × σ) (prevPred : Option π) (acc : LevelOut σ π Λ),
      (∀ i ∈ steps, i + 1 ≤ ctx.maxSeq) →
      tokenLoop ctx parentH coin row steps st prevPred acc
        = .ok (tokenRun ctx parentH coin row steps st prevPred acc) := by
  intro steps
  induction steps with
  | nil => intro st prevPred acc _; rfl
  | cons i rest ih =>
    intro st prevPred acc hfit
    rw [tokenLoop.eq_def, tokenRun.eq_def]
    simp only
    rw [decodeStepM_eq_ok ctx.m ctx.mem _ st parentH none hsib hattn]
    have hi : ¬ ctx.maxSeq < i + 1 := by
      have := hfit i (List.mem_cons_self _ _)
      omega
    simp only [if_neg hi]
    exact ih _ _ _ (fun j hj => hfit j (List.mem_cons_of_mem _ hj))

/-- Pure version of `runLevel`. -/
def runLevelPure (ctx : TrainCtx ε σ π μ α Λ) (graphCell graphHidden : σ) (queue : List QEntry)
    (acc : List (LevelOut σ π Λ)) (cur : ℕ) (loss : Λ) : LevelOut σ π Λ :=
  let seed := seedOf ctx graphCell graphHidden queue acc cur
  let row := rowOf ctx.lparen queue cur
  tokenRun ctx seed.2 (ctx.coin cur) row (List.range (row.length - 1)) seed none
    { states := [seed], fed := [], preds := [], lossSum := loss }

theorem runLevel_eq_pure (ctx : TrainCtx ε σ π μ α Λ) (graphCell graphHidden : σ)
    (queue : List QEntry) (acc : List (LevelOut σ π Λ)) (cur : ℕ) (loss : Λ)
    (hsib : ctx.m.rnn.useSibling = false) (hattn : ctx.m.separateAttn = false)
    (hrow : (rowOf ctx.lparen queue cur).length ≤ ctx.maxSeq + 1) :
    runLevel ctx graphCell graphHidden queue acc cur loss
      = .ok (runLevelPure ctx graphCell graphHidden queue acc cur loss) := by
  rw [runLevel, runLevelPure]
  exact tokenLoop_eq_tokenRun ctx _ _ _ hsib hattn _ _ _ _
    (fun i hi => by
      have := List.mem_range.mp hi
      omega)

/-- Pure version of `runLevels`. -/
def runLevelsPure (ctx : TrainCtx ε σ π μ α Λ) (graphCell graphHidden : σ)
    (queue : List QEntry) (maxIndex : ℕ) :
    ℕ → ℕ → List (LevelOut σ π Λ) → Λ → List (LevelOut σ π Λ) × Λ
  | fuel, cur, acc, loss =>
    if cur ≤ maxIndex then
      if ctx.maxDepth < cur then (acc, loss)
      else
        match fuel with
        | 0 => (acc, loss)
        | fuel' + 1 =>
          let lv := runLevelPure ctx graphCell graphHidden queue acc cur loss
          runLevelsPure ctx graphCell graphHidden queue maxIndex
            fuel' (cur + 1) (acc ++ [lv]) lv.lossSum
    else (acc, loss)

theorem runLevels_eq_pure (ctx : TrainCtx ε σ π μ α Λ) (graphCell graphHidden : σ)
    (queue : List QEntry) (maxIndex : ℕ)
    (hsib : ctx.m.rnn.useSibling = false) (hattn : ctx.m.separateAttn = false)
    (hrow : ∀ p, p ≤ maxIndex → (rowOf ctx.lparen queue p).length ≤ ctx.maxSeq + 1) :
    ∀ (fuel cur : ℕ) (acc : List (LevelOut σ π Λ)) (loss : Λ),
      maxIndex + 1 ≤ fuel + cur →
      runLevels ctx graphCell graphHidden queue maxIndex fuel cur acc loss
        = .ok (runLevelsPure ctx graphCell graphHidden queue maxIndex fuel cur acc loss) := by
  intro fuel
  induction fuel with
  | zero =>
    intro cur acc loss hf
    rw [runLevels, runLevelsPure, if_neg (by omega : ¬ cur ≤ maxIndex),
      if_neg (by omega : ¬ cur ≤ maxIndex)]
  | succ fuel ih =>
    intro cur acc loss hf
    rw [runLevels, runLevelsPure]
    by_cases h1 : cur ≤ maxIndex
    · rw [if_pos h1, if_pos h1]
      by_cases h2 : ctx.maxDepth < cur
      · rw [if_pos h2, if_pos h2]
      · rw [if_neg h2, if_neg h2]
        rw [runLevel_eq_pure ctx graphCell graphHidden queue acc cur loss hsib hattn (hrow cur h1)]
        exact ih (cur + 1) _ _ (by omega)
    · rw [if_neg h1, if_neg h1]

/-- Pure version of `runForwardPass` (defined when the pooling dispatch
succeeds). -/
def runForwardPassPure (ctx : TrainCtx ε σ π μ α Λ) (graphCell graphHidden : σ)
    (T : PTree) : TrainOut σ π Λ :=
  let queue := linearize T
  let maxIndex := queue.length
  let out := runLevelsPure ctx graphCell graphHidden queue maxIndex (maxIndex + 1) 1 []
    ctx.lossInit
  ⟨out.1, ctx.lossDiv out.2 1⟩

theorem runForwardPass_eq_pure (ctx : TrainCtx ε σ π μ α Λ) (maxPool minPool meanPool : μ → σ)
    (rnnNodeEmbedding : μ) (T : PTree)
    (hsib : ctx.m.rnn.useSibling = false) (hattn : ctx.m.separateAttn = false)
    (hrow : ∀ p, p ≤ (linearize T).length →
      (rowOf ctx.lparen (linearize T) p).length ≤ ctx.maxSeq + 1) :
    runForwardPass ctx "max" maxPool minPool meanPool none rnnNodeEmbedding T
      = .ok (runForwardPassPure ctx (maxPool ctx.mem) (maxPool ctx.mem) T) := by
  have hpool : graphPooledStates (μ := μ) (σ := σ) "max" maxPool minPool meanPool none ctx.mem
      = .ok (maxPool ctx.mem, maxPool ctx.mem) := rfl
  rw [runForwardPass, hpool]
  dsimp only
  rw [runLevels_eq_pure ctx (maxPool ctx.mem) (maxPool ctx.mem) (linearize T)
    (linearize T).length hsib hattn hrow ((linearize T).length + 1) 1 [] ctx.lossInit (by omega)]
  rfl

/-! ### Concrete collaborators for executable runs -/

/-- Concrete recurrent unit over `ℕ` states: the embedding is the identity and
the LSTM cell increments both state components. -/
def natUnit (useSib : Bool) : TreeUnit ℕ ℕ :=
  { useSibling := useSib
    embedDrop := id
    lstm := fun _ st => (st.1 + 1, st.2 + 1) }

/-- Concrete decoder over `ℕ` everywhere: attention adds the memory to the
hidden state, the output layer adds context and hidden, predictions are read
back by `argmax = id`, and the criterion is constantly 1. -/
def natModel (useSib : Bool) : DecModel ℕ ℕ ℕ ℕ ℕ :=
  { separateAttn := false
    vocabSize := 100
    unkIdx := 3
    rnn := natUnit useSib
    attention := fun h mem => (h + mem, h)
    outLayer := fun c h => c + h
    argmax := id }

/-- Concrete training context: memory 7, `'('` id 3, all teacher-forcing coins
0 (a legal `random.random()` draw), loss over `ℕ` with criterion constantly
1. -/
def natCtx (useSib : Bool) (ratio : ℚ) (maxDepth maxSeq : ℕ) : TrainCtx ℕ ℕ ℕ ℕ ℕ ℕ :=
  { m := natModel useSib
    mem := 7
    zero := 0
    lparen := 3
    ratio := ratio
    coin := fun _ _ => 0
    maxDepth := maxDepth
    maxSeq := maxSeq
    crit := fun _ _ => 1
    lossInit := 0
    lossAdd := fun a b => a + b
    lossDiv := fun l _ => l }

/-- The example target tree: a root whose first child is the subtree `(5)` and
whose second child is the terminal token 6. -/
def exTree : PTree := .node [.sub (.node [.tok 5]), .tok 6]

theorem linearize_exTree :
    linearize exTree = [⟨exTree, 0, 1⟩, ⟨.node [.tok 5], 1, 1⟩] := by
  simp only [linearize, rootEntry, exTree, bfsTail_cons, bfsTail_nil, childrenEntries,
    childrenEntriesFrom, PTree.children, List.nil_append]

theorem rowFit_exTree : ∀ p, p ≤ (linearize exTree).length →
    (rowOf (natCtx false 1 5 5).lparen (linearize exTree) p).length
      ≤ (natCtx false 1 5 5).maxSeq + 1 := by
  simp only [linearize_exTree]
  decide

set_option maxHeartbeats 1000000 in
theorem runForwardPassPure_exTree :
    runForwardPassPure (natCtx false 1 5 5) 7 7 exTree
      = ⟨[⟨[(7, 7), (8, 8), (9, 9), (10, 10)], [1, 4, 6], [23, 25, 27], 3⟩,
          ⟨[(8, 8), (9, 9), (10, 10)], [3, 5], [25, 27], 5⟩], 5⟩ := by
  rw [runForwardPassPure]
  rw [linearize_exTree]
  decide

/-- Evaluation of the teacher-forced training pass on `exTree` with sibling
feeding off: two levels run, level 1 with row `[1, 4, 6, 2]` and level 2 with
row `[3, 5, 2]`, seeded as the source seeds them (`lossSum` is the running
loss accumulator, 3 after level 1 and 5 after level 2). -/
theorem runForwardPass_exTree :
    runForwardPass (natCtx false 1 5 5) "max" id id id none 0 exTree
      = .ok ⟨[⟨[(7, 7), (8, 8), (9, 9), (10, 10)], [1, 4, 6], [23, 25, 27], 3⟩,
              ⟨[(8, 8), (9, 9), (10, 10)], [3, 5], [25, 27], 5⟩], 5⟩ := by
  rw [runForwardPass_eq_pure (natCtx false 1 5 5) id id id 0 exTree rfl rfl rowFit_exTree]
  exact congrArg Except.ok runForwardPassPure_exTree

/-- **C9.** The training loss — indeed the whole training-pass result — is
independent of the `rnn_node_embedding` argument: line 195 overwrites it with
a zero tensor before any decoding step, and nothing reads it afterwards, so
two invocations differing only in that argument return the same value. -/
theorem c9_rnn_node_embedding_irrelevant (ctx : TrainCtx ε σ π μ α Λ)
    (poolStrategy : String) (maxPool minPool meanPool : μ → σ)
    (graphLevelEmbedding : Option (σ × σ)) (r1 r2 : μ) (T : PTree) :
    runForwardPass ctx poolStrategy maxPool minPool meanPool graphLevelEmbedding r1 T
      = runForwardPass ctx poolStrategy maxPool minPool meanPool graphLevelEmbedding r2 T := rfl

set_option maxHeartbeats 1000000 in
/-- **C1** (code evaluated at the failing input).  With `use_sibling = True`
(the constructor's default) the teacher-forced training pass crashes at its
very first decoding step: `_run_forward_pass` computes a `sibling_state`
locally but never passes it to `decode_step` (lines 258-265 list no
`sibling_state` argument), so `TreeDecodingUnit.forward` concatenates
`sibling_state = None` and raises a `TypeError`.  No sibling state — terminal
or otherwise — is ever fed. -/
theorem c1_sibling_state_never_fed :
    runForwardPass (natCtx true 1 5 5) "max" id id id none 0 exTree
      = .error .catNoneSibling := by
  rw [runForwardPass]
  dsimp only
  rw [linearize_exTree]
  decide

/-- **C2 counterexample.**  In the teacher-forced run on `exTree`, the
decode-state table entry at queue position 2, step 0 is `(8, 8)` — the
parent's state at step index `child_index = 1` — while the parent's terminal
state (after its last token) is `(10, 10)`.  The claim that `(q, 0)` is copied
from the parent's *terminal* state is false on this run. -/
theorem c2_counterexample_seed_is_not_terminal :
    ((runForwardPass (natCtx false 1 5 5) "max" id id id none 0 exTree).toOption.map
      (fun o => ((o.levels.getD 1 ⟨[], [], [], 0⟩).states.getD 0 (0, 0),
        (o.levels.getD 0 ⟨[], [], [], 0⟩).states.getD
          ((o.levels.getD 0 ⟨[], [], [], 0⟩).states.length - 1) (0, 0))))
      = some ((8, 8), (10, 10)) ∧ ((8, 8) : ℕ × ℕ) ≠ ((10, 10) : ℕ × ℕ) := by
  constructor
  · rw [runForwardPass_exTree]
    rfl
  · decide

/-! ### C10: separate attention is unusable -/

/-- **C10.** For every decoder constructed with `attn_type` different from
`"uniform"`, every call to `decode_step` fails before returning: the
separate-attention branch (line 327-328) assigns no attention context vector,
so the concatenation at line 336 reads an undefined variable (when sibling
feeding is enabled the call can fail even earlier, on the `None` sibling
concatenation — either way no call returns). -/
theorem c10_separate_attention_always_fails (attnType : String) (h : attnType ≠ "uniform")
    (rnnType : String) (vocabSize unkIdx : ℕ) (unit : TreeUnit ε σ)
    (attention : σ → μ → σ × α) (outLayer : σ → σ → π) (argmax : π → ℕ)
    (mem : μ) (input : ℕ) (state : σ × σ) (parentState : σ) (sibling : Option σ) :
    ∃ e, decodeStepM (mkStdTreeDecoder attnType rnnType vocabSize unkIdx unit attention
      outLayer argmax) mem input state parentState sibling = .error e := by
  set m := mkStdTreeDecoder (μ := μ) (π := π) (α := α) attnType rnnType vocabSize unkIdx
    unit attention outLayer argmax with hm
  have hsep : m.separateAttn = true := by
    rw [hm]
    simp only [mkStdTreeDecoder]
    exact bne_iff_ne.mpr h
  rw [decodeStepM]
  cases hr : rnnForward m.rnn (filterOov m input) state.1 state.2 parentState sibling with
  | error e => exact ⟨e, rfl⟩
  | ok v =>
    refine ⟨.nameErrorContext, ?_⟩
    obtain ⟨c, h', raw⟩ := v
    simp only [hsep, if_true]

/-- Witness for C10 at a concrete decoder (`attn_type =
"separate_on_node_type"`, one of the documented options). -/
theorem c10_witness :
    ∃ e, decodeStepM (mkStdTreeDecoder "separate_on_node_type" "lstm" 100 3 (natUnit false)
      (fun h mem => (h + mem, h)) (fun c h => c + h) id) 7 5 (0, 0) 0 none = .error e :=
  c10_separate_attention_always_fails "separate_on_node_type" (by decide) "lstm" 100 3
    (natUnit false) (fun h mem => (h + mem, h)) (fun c h => c + h) id 7 5 (0, 0) 0 none

/-! ### C8: configuration errors -/

/-- **C8 counterexample.**  Constructing a decoder with the unsupported
`rnn_type = "foo"` raises nothing — `_build_rnn` (lines 483-488) ignores the
argument — and the first decoding step then succeeds, returning a
distribution: the unsupported `rnn_type` silently produces a working decoder,
contrary to the claim that it causes a fatal error at construction or first
use. -/
theorem c8_counterexample_rnn_type_ignored :
    decodeStepM (mkStdTreeDecoder "uniform" "foo" 100 3 (natUnit false)
        (fun h mem => (h + mem, h)) (fun c h => c + h) id) 7 5 (0, 0) 0 none
      = .ok (9, (1, 1), 1) := rfl

/-- **C8 amended.**  An unsupported graph pooling strategy is fatal at first
use — the training pass raises `NotImplementedError` (line 188) before any
decoding — while an unsupported `rnn_type` raises nothing: `_build_rnn`
ignores it, and construction yields exactly the decoder that `"lstm"` (or any
other string) yields. -/
theorem c8_pooling_fatal_rnn_type_ignored (ctx : TrainCtx ε σ π μ α Λ)
    (strategy : String) (h1 : strategy ≠ "max") (h2 : strategy ≠ "min")
    (h3 : strategy ≠ "mean") (maxPool minPool meanPool : μ → σ) (rnnEmb : μ) (T : PTree)
    (attnType rnnType : String) (vocabSize unkIdx : ℕ) (unit : TreeUnit ε σ)
    (attention : σ → μ → σ × α) (outLayer : σ → σ → π) (argmax : π → ℕ) :
    runForwardPass ctx strategy maxPool minPool meanPool none rnnEmb T
        = .error .notImplementedPooling
      ∧ mkStdTreeDecoder attnType rnnType vocabSize unkIdx unit attention outLayer argmax
        = mkStdTreeDecoder attnType "lstm" vocabSize unkIdx unit attention outLayer argmax := by
  refine ⟨?_, rfl⟩
  have hpool : graphPooledStates (μ := μ) (σ := σ) strategy maxPool minPool meanPool none ctx.mem
      = .error .notImplementedPooling := by
    rw [graphPooledStates]
    simp only [if_neg h1, if_neg h2, if_neg h3]
  rw [runForwardPass, hpool]

/-- Witness for the amended C8 at the concrete strategy `"foo"`. -/
theorem c8_witness :
    runForwardPass (natCtx false 1 5 5) "foo" id id id none 0 exTree
        = .error .notImplementedPooling
      ∧ mkStdTreeDecoder "uniform" "gru" 100 3 (natUnit false)
          (fun h mem => (h + mem, h)) (fun c h => c + h) id
        = mkStdTreeDecoder "uniform" "lstm" 100 3 (natUnit false)
          (fun h mem => (h + mem, h)) (fun c h => c + h) id :=
  c8_pooling_fatal_rnn_type_ignored (natCtx false 1 5 5) "foo" (by decide) (by decide)
    (by decide) id id id 0 exTree "uniform" "gru" 100 3 (natUnit false)
    (fun h mem => (h + mem, h)) (fun c h => c + h) id

/-! ### The copy mechanism of `decode_step` (lines 338-356)

Probabilities are modelled over `ℚ`.  The copy gate is the scalar
`prob_ptr = torch.sigmoid(self.ptr(torch.cat(pgen_collect, -1)))` (line 345);
since `ptr` is a learned layer and the sigmoid is an external numeric
function, the gate *value* is taken as an input of the mixing step — the
sigmoid constrains it to `(0, 1)`. -/

/-- `output.scatter_add_(1, enc_batch, src)` for one batch row:
`output[enc_batch[j]] += src[j]`, accumulating over `j`. -/
def scatterAdd (out : List ℚ) : List ℕ → List ℚ → List ℚ
  | [], _ => out
  | _, [] => out
  | i :: is, v :: vs => scatterAdd (out.set i (out.getD i 0 + v)) is vs

/-- The copy-mode mixing of `decode_step` (lines 338-356): with
`prob_gen = 1 - prob_ptr` (line 346), the softmax generation distribution is
scaled by `prob_gen` (line 349), padded with `len(oov_dict) - len(tgt_vocab)`
zero slots up to the extended vocabulary (lines 350-351), and
`prob_ptr * attn_scores` is scatter-added at the source token ids
(lines 354-355). -/
def copyMix (tgtVocabLen oovDictLen : ℕ) (probPtr : ℚ) (genOutput attnScores : List ℚ)
    (encBatch : List ℕ) : List ℚ :=
  let probGen := 1 - probPtr
  let ret := genOutput.map (fun x => probGen * x)
  let needPad := oovDictLen - tgtVocabLen
  let output := ret ++ List.replicate needPad 0
  scatterAdd output encBatch (attnScores.map (fun x => probPtr * x))

/-- The mixing as claim C4's words describe it, for comparison with
`copyMix`: "its generation portion equals the softmax generation distribution
scaled by the sigmoid copy-gate, and (1 − copy-gate) × attention_weights is
scatter-added". -/
def copyMixSpec (tgtVocabLen oovDictLen : ℕ) (probPtr : ℚ) (genOutput attnScores : List ℚ)
    (encBatch : List ℕ) : List ℚ :=
  let ret := genOutput.map (fun x => probPtr * x)
  let output := ret ++ List.replicate (oovDictLen - tgtVocabLen) 0
  scatterAdd output encBatch (attnScores.map (fun x => (1 - probPtr) * x))

/-- **C4 counterexample.**  At gate value 1/3 (attained by the sigmoid, e.g.
σ(−ln 2) = 1/3), one generation slot and one out-of-vocabulary source token,
the code's mixing differs from the claim's: the code returns
`[2/3 · 1, 1/3 · 1] = [2/3, 1/3]` while the claim's formula gives
`[1/3, 2/3]` — the code scales generation by `1 − gate` and the copy part by
`gate`, not the other way around. -/
theorem c4_counterexample_gate_roles_swapped :
    copyMix 1 2 (1/3) [1] [1] [1] ≠ copyMixSpec 1 2 (1/3) [1] [1] [1] := by
  simp only [copyMix, copyMixSpec, scatterAdd, List.map, List.set, List.getD, List.cons_append,
    List.nil_append, List.replicate, List.get?, ne_eq, List.cons.injEq, not_and]
  norm_num

/-- Sum of the attention mass that `scatterAdd` deposits at slot `k`:
the total of `src[j]` over the positions `j` with `idx[j] = k`. -/
def matchSum (k : ℕ) : List ℕ → List ℚ → ℚ
  | [], _ => 0
  | _, [] => 0
  | i :: is, v :: vs => (if i = k then v else 0) + matchSum k is vs

theorem length_scatterAdd (is : List ℕ) (vs : List ℚ) (out : List ℚ) :
    (scatterAdd out is vs).length = out.length := by
  induction is generalizing vs out with
  | nil => cases vs <;> rfl
  | cons i is ih =>
    cases vs with
    | nil => rfl
    | cons v vs => rw [scatterAdd, ih, List.length_set]

theorem scatterAdd_getD (is : List ℕ) (vs : List ℚ) (out : List ℚ) (k : ℕ)
    (hidx : ∀ i ∈ is, i < out.length) (hk : k < out.length) :
    (scatterAdd out is vs).getD k 0 = out.getD k 0 + matchSum k is vs := by
  induction is generalizing vs out with
  | nil =>
    cases vs <;> simp [scatterAdd, matchSum]
  | cons i is ih =>
    cases vs with
    | nil => simp [scatterAdd, matchSum]
    | cons v vs =>
      rw [scatterAdd, matchSum]
      rw [ih vs (out.set i (out.getD i 0 + v))
        (by intro j hj; rw [List.length_set]; exact hidx j (List.mem_cons_of_mem _ hj))
        (by rw [List.length_set]; exact hk)]
      by_cases hik : i = k
      · subst hik
        rw [getD_set_self _ _ _ _ (hidx i (List.mem_cons_self _ _))]
        simp only [if_true]
        ring
      · rw [getD_set_ne _ _ _ _ _ hik, if_neg hik]
        ring

theorem matchSum_map_mul (k : ℕ) (c : ℚ) (is : List ℕ) (vs : List ℚ) :
    matchSum k is (vs.map (fun x => c * x)) = c * matchSum k is vs := by
  induction is generalizing vs with
  | nil => simp [matchSum]
  | cons i is ih =>
    cases vs with
    | nil => simp [matchSum]
    | cons v vs =>
      rw [List.map_cons, matchSum, matchSum, ih]
      by_cases hik : i = k <;> simp [hik] <;> ring

theorem getD_append_left {l₁ l₂ : List ℚ} {k : ℕ} (h : k < l₁.length) :
    (l₁ ++ l₂).getD k 0 = l₁.getD k 0 := by
  induction l₁ generalizing k with
  | nil => simp at h
  | cons a t ih =>
    cases k with
    | zero => rfl
    | succ n => exact ih (by simpa using h)

theorem getD_map_mul (c : ℚ) (l : List ℚ) (k : ℕ) (h : k < l.length) :
    (l.map (fun x => c * x)).getD k 0 = c * l.getD k 0 := by
  induction l generalizing k with
  | nil => simp at h
  | cons a t ih =>
    cases k with
    | zero => rfl
    | succ n => exact ih n (by simpa using h)

theorem getD_replicate_zero (n k : ℕ) : (List.replicate n (0 : ℚ)).getD k 0 = 0 := by
  induction n generalizing k with
  | zero => cases k <;> rfl
  | succ m ih =>
    cases k with
    | zero => rfl
    | succ j => exact ih j

theorem getD_append_right_replicate (l : List ℚ) (n k : ℕ) (h : l.length ≤ k) :
    (l ++ List.replicate n (0 : ℚ)).getD k 0 = 0 := by
  induction l generalizing k with
  | nil => exact getD_replicate_zero n k
  | cons a t ih =>
    cases k with
    | zero => simp at h
    | succ j => exact ih j (by simpa using h)

/-- **C4 amended.**  With copy mode on, the returned distribution lives on the
extended vocabulary (`len(oov_dict)` slots, the extra ones starting at zero),
its entry at slot `k` being the generation probability scaled by
**`1 − gate`** (zero beyond the base vocabulary) plus **`gate`** times the
total attention mass of the source positions whose token id is `k`
(accumulating over repeated ids).  The sigmoid gate multiplies the *copy*
part, and `1 − gate` the generation part — the reverse of the claim's
wording. -/
theorem c4_amended_copy_mixing (g : ℚ) (gen attn : List ℚ) (enc : List ℕ)
    (tgtLen oovLen : ℕ) (hgen : gen.length = tgtLen) (hsub : tgtLen ≤ oovLen)
    (hidx : ∀ i ∈ enc, i < oovLen) :
    (copyMix tgtLen oovLen g gen attn enc).length = oovLen
      ∧ ∀ k < oovLen, (copyMix tgtLen oovLen g gen attn enc).getD k 0
          = (if k < gen.length then (1 - g) * gen.getD k 0 else 0)
            + g * matchSum k enc attn := by
  have hbase : (gen.map (fun x => (1 - g) * x)
      ++ List.replicate (oovLen - tgtLen) (0 : ℚ)).length = oovLen := by
    simp [hgen]
    omega
  constructor
  · rw [copyMix, length_scatterAdd, hbase]
  · intro k hk
    rw [copyMix, scatterAdd_getD _ _ _ _ (by rw [hbase]; exact hidx) (by rw [hbase]; exact hk),
      matchSum_map_mul]
    by_cases hkg : k < gen.length
    · rw [if_pos hkg, getD_append_left (by simpa using hkg), getD_map_mul _ _ _ hkg]
    · rw [if_neg hkg, getD_append_right_replicate _ _ _ (by rw [List.length_map]; omega)]

/-- Witness for the amended C4: gate 1/3, generation `[1/2, 1/2]`, one source
position with extended-vocabulary id 2. -/
theorem c4_witness :
    (copyMix 2 3 (1/3) [1/2, 1/2] [1] [2]).length = 3
      ∧ ∀ k < 3, (copyMix 2 3 (1/3) [1/2, 1/2] [1] [2]).getD k 0
          = (if k < ([1/2, 1/2] : List ℚ).length then (1 - 1/3) * ([1/2, 1/2] : List ℚ).getD k 0
              else 0)
            + 1/3 * matchSum k [2] [1] :=
  c4_amended_copy_mixing (1/3) [1/2, 1/2] [1] [2] 2 3 rfl (by omega)
    (by intro i hi; simp at hi; omega)

theorem sum_map_mul (c : ℚ) (l : List ℚ) : (l.map (fun x => c * x)).sum = c * l.sum := by
  induction l with
  | nil => simp
  | cons a t ih => simp [ih]; ring

theorem sum_set_add (l : List ℚ) (i : ℕ) (v : ℚ) (h : i < l.length) :
    (l.set i (l.getD i 0 + v)).sum = l.sum + v := by
  induction l generalizing i with
  | nil => simp at h
  | cons a t ih =>
    cases i with
    | zero => simp [List.getD]; ring
    | succ n =>
      simp only [List.set, List.sum_cons, List.getD_cons_succ]
      rw [ih n (by simpa using h)]
      ring

theorem scatterAdd_sum (is : List ℕ) (vs : List ℚ) (out : List ℚ)
    (hlen : is.length = vs.length) (hidx : ∀ i ∈ is, i < out.length) :
    (scatterAdd out is vs).sum = out.sum + vs.sum := by
  induction is generalizing vs out with
  | nil =>
    cases vs with
    | nil => simp [scatterAdd]
    | cons v vs => simp at hlen
  | cons i is ih =>
    cases vs with
    | nil => simp at hlen
    | cons v vs =>
      rw [scatterAdd, List.sum_cons]
      rw [ih vs _ (by simpa using hlen)
        (by intro j hj; rw [List.length_set]; exact hidx j (List.mem_cons_of_mem _ hj))]
      rw [sum_set_add _ _ _ (hidx i (List.mem_cons_self _ _))]
      ring

/-- **C5.**  With copy mode on, whenever the attention weights form a
probability distribution over the source positions (non-negative, summing
to 1; the softmax generation distribution likewise sums to 1) and every
source token id lies inside the extended vocabulary, the distribution
returned by the decoding step sums to 1 over the extended vocabulary:
`(1 − gate) · Σ gen + gate · Σ attn = 1`. -/
theorem c5_copy_distribution_sums_to_one (g : ℚ) (gen attn : List ℚ) (enc : List ℕ)
    (tgtLen oovLen : ℕ) (hgen : gen.length = tgtLen) (hsub : tgtLen ≤ oovLen)
    (hgen1 : gen.sum = 1) (hattn1 : attn.sum = 1) (hattn0 : ∀ a ∈ attn, 0 ≤ a)
    (hlen : enc.length = attn.length) (hidx : ∀ i ∈ enc, i < oovLen) :
    (copyMix tgtLen oovLen g gen attn enc).sum = 1 := by
  have hbase : (gen.map (fun x => (1 - g) * x)
      ++ List.replicate (oovLen - tgtLen) (0 : ℚ)).length = oovLen := by
    simp [hgen]
    omega
  rw [copyMix, scatterAdd_sum _ _ _ (by simpa using hlen) (by rw [hbase]; exact hidx)]
  rw [List.sum_append, sum_map_mul, sum_map_mul, hgen1, hattn1]
  simp

/-- Witness for C5: gate 1/3, generation `[1/2, 1/2]`, single attention weight
1 at a source position whose id is the out-of-vocabulary slot 2. -/
theorem c5_witness :
    (copyMix 2 3 (1/3) [1/2, 1/2] [1] [2]).sum = 1 :=
  c5_copy_distribution_sums_to_one (1/3) [1/2, 1/2] [1] [2] 2 3 rfl (by omega)
    (by norm_num) (by norm_num) (by intro a ha; simp at ha; rw [ha]; norm_num)
    rfl (by intro i hi; simp at hi; omega)

/-! ### Structure of the training trace -/

/-- Every entry of the breadth-first queue points to a strictly earlier queue
position as its parent: an entry at 0-based position `r` has `parent ≤ n + r`
when the pending entries' parents are bounded by `n`. -/
theorem bfsTail_parent_le (m : ℕ) :
    ∀ (P : List QEntry), pendingSize P ≤ m → ∀ (n : ℕ), (∀ e ∈ P, e.parent ≤ n) →
      ∀ (r : ℕ) (e' : QEntry), (bfsTail n P).get? r = some e' → e'.parent ≤ n + r := by
  induction m with
  | zero =>
    intro P hm
    cases P with
    | nil => intro n _ r e' h; rw [bfsTail_nil] at h; cases h
    | cons e rest =>
      exfalso
      rw [pendingSize_cons, size_eq_children] at hm
      omega
  | succ m ih =>
    intro P hm
    cases P with
    | nil => intro n _ r e' h; rw [bfsTail_nil] at h; cases h
    | cons e rest =>
      intro n hpar r e' h
      rw [bfsTail_cons] at h
      cases r with
      | zero =>
        cases h
        have := hpar e (List.mem_cons_self _ _)
        omega
      | succ r' =>
        have hm' : pendingSize (rest ++ childrenEntries e.tree.children (n + 1)) ≤ m := by
          have := pendingSize_cons_lt e rest (n + 1)
          omega
        have hpar' : ∀ x ∈ rest ++ childrenEntries e.tree.children (n + 1), x.parent ≤ n + 1 := by
          intro x hx
          rcases List.mem_append.mp hx with hx | hx
          · have := hpar x (List.mem_cons_of_mem _ hx)
            omega
          · exact le_of_eq (childrenEntriesFrom_parent e.tree.children 0 (n + 1) x hx)
        have := ih _ hm' (n + 1) hpar' r' e' (by simpa using h)
        omega

theorem linearize_parent_lt (T : PTree) (r : ℕ) (e : QEntry)
    (h : (linearize T).get? r = some e) : e.parent ≤ r := by
  have := bfsTail_parent_le (pendingSize [rootEntry T]) [rootEntry T] le_rfl 0
    (by intro x hx; rcases List.mem_singleton.mp hx with rfl; exact le_rfl) r e h
  omega

/-- `tokenRun` only appends to the recorded state list. -/
theorem tokenRun_states_ext (ctx : TrainCtx ε σ π μ α Λ) (parentH : σ) (coin : ℕ → ℚ)
    (row : List ℕ) :
    ∀ (steps : List ℕ) (st : σ × σ) (pp : Option π) (acc : LevelOut σ π Λ),
      ∃ ext, (tokenRun ctx parentH coin row steps st pp acc).states = acc.states ++ ext := by
  intro steps
  induction steps with
  | nil => intro st pp acc; exact ⟨[], by rw [tokenRun]; simp⟩
  | cons i rest ih =>
    intro st pp acc
    rw [tokenRun_cons]
    obtain ⟨ext, hext⟩ := ih
      (decodeStepOk ctx.m ctx.mem (stepInputWord ctx coin row i pp) st parentH).2.1
      (some (decodeStepOk ctx.m ctx.mem (stepInputWord ctx coin row i pp) st parentH).1)
      { states := acc.states
          ++ [(decodeStepOk ctx.m ctx.mem (stepInputWord ctx coin row i pp) st parentH).2.1]
        fed := acc.fed ++ [stepInputWord ctx coin row i pp]
        preds := acc.preds
          ++ [(decodeStepOk ctx.m ctx.mem (stepInputWord ctx coin row i pp) st parentH).1]
        lossSum := ctx.lossAdd acc.lossSum
          (ctx.crit (decodeStepOk ctx.m ctx.mem (stepInputWord ctx coin row i pp) st
            parentH).1 (row.getD (i + 1) 0)) }
    refine ⟨[(decodeStepOk ctx.m ctx.mem (stepInputWord ctx coin row i pp) st parentH).2.1]
      ++ ext, ?_⟩
    rw [hext]
    simp

/-- The first recorded state of a level is its seed
(`dec_state[cur_index][0]`). -/
theorem runLevelPure_states_head (ctx : TrainCtx ε σ π μ α Λ) (gc gh : σ)
    (queue : List QEntry) (acc : List (LevelOut σ π Λ)) (cur : ℕ) (loss : Λ) :
    (runLevelPure ctx gc gh queue acc cur loss).states.get? 0
      = some (seedOf ctx gc gh queue acc cur) := by
  rw [runLevelPure]
  obtain ⟨ext, hext⟩ := tokenRun_states_ext ctx (seedOf ctx gc gh queue acc cur).2
    (ctx.coin cur) (rowOf ctx.lparen queue cur)
    (List.range ((rowOf ctx.lparen queue cur).length - 1))
    (seedOf ctx gc gh queue acc cur) none
    { states := [seedOf ctx gc gh queue acc cur], fed := [], preds := [], lossSum := loss }
  rw [hext]
  rfl

/-- The running loss accumulator after the levels `L`. -/
def lastLoss (ctx : TrainCtx ε σ π μ α Λ) (L : List (LevelOut σ π Λ)) : Λ :=
  match L.getLast? with
  | some lv => lv.lossSum
  | none => ctx.lossInit

/-- Each level of a finished trace is exactly the level the pure level
function produces from the levels before it. -/
def levelsSpec (ctx : TrainCtx ε σ π μ α Λ) (gc gh : σ) (queue : List QEntry)
    (L : List (LevelOut σ π Λ)) : Prop :=
  ∀ j < L.length, L.get? j
    = some (runLevelPure ctx gc gh queue (L.take j) (j + 1) (lastLoss ctx (L.take j)))

theorem runLevelsPure_spec (ctx : TrainCtx ε σ π μ α Λ) (gc gh : σ)
    (queue : List QEntry) (maxIndex : ℕ) :
    ∀ (fuel cur : ℕ) (acc : List (LevelOut σ π Λ)) (loss : Λ),
      cur = acc.length + 1 → loss = lastLoss ctx acc →
      levelsSpec ctx gc gh queue acc →
      levelsSpec ctx gc gh queue (runLevelsPure ctx gc gh queue maxIndex fuel cur acc loss).1 := by
  intro fuel
  induction fuel with
  | zero =>
    intro cur acc loss _ _ hspec
    rw [runLevelsPure]
    split
    · split
      · exact hspec
      · exact hspec
    · exact hspec
  | succ fuel ih =>
    intro cur acc loss hcur hloss hspec
    rw [runLevelsPure]
    split
    · split
      · exact hspec
      · refine ih (cur + 1) (acc ++ [runLevelPure ctx gc gh queue acc cur loss]) _ ?_ ?_ ?_
        · simp [hcur]
        · rw [lastLoss, List.getLast?_concat]
        · intro j hj
          simp only [List.length_append, List.length_cons, List.length_nil] at hj
          by_cases hja : j < acc.length
          · rw [List.get?_append hja,
              List.take_append_of_le_length (by omega), hspec j hja]
          · have hje : j = acc.length := by omega
            subst hje
            rw [List.get?_concat_length, List.take_left]
            rw [hcur, hloss]
    · exact hspec

/-- The trace of the full pure pass satisfies the level invariant. -/
theorem runForwardPassPure_levelsSpec (ctx : TrainCtx ε σ π μ α Λ) (gc gh : σ) (T : PTree) :
    levelsSpec ctx gc gh (linearize T) (runForwardPassPure ctx gc gh T).levels := by
  rw [runForwardPassPure]
  exact runLevelsPure_spec ctx gc gh (linearize T) (linearize T).length
    ((linearize T).length + 1) 1 [] ctx.lossInit rfl rfl (by intro j hj; simp at hj)

/-- **C2 amended.**  In the training pass the decode-state entry at `(q, 0)` is
seeded before any token step runs: level 1 copies the pooled graph cell and
hidden states, and every level `p ≥ 2` with a queue entry copies the *parent
level's state at step index `child_index`* —
`dec_state[par_index][child_index]` (lines 237-240) — which is **not** the
parent's terminal state in general. -/
theorem c2_amended_seed_from_parent_at_child_index (ctx : TrainCtx ε σ π μ α Λ)
    (maxPool minPool meanPool : μ → σ) (rnnEmb : μ) (T : PTree)
    (hsib : ctx.m.rnn.useSibling = false) (hattn : ctx.m.separateAttn = false)
    (hrow : ∀ p, p ≤ (linearize T).length →
      (rowOf ctx.lparen (linearize T) p).length ≤ ctx.maxSeq + 1) :
    runForwardPass ctx "max" maxPool minPool meanPool none rnnEmb T
        = .ok (runForwardPassPure ctx (maxPool ctx.mem) (maxPool ctx.mem) T)
      ∧ (∀ lv, (runForwardPassPure ctx (maxPool ctx.mem) (maxPool ctx.mem) T).levels.get? 0
            = some lv →
          lv.states.get? 0 = some (maxPool ctx.mem, maxPool ctx.mem))
      ∧ (∀ p lv e, 2 ≤ p →
          (runForwardPassPure ctx (maxPool ctx.mem) (maxPool ctx.mem) T).levels.get? (p - 1)
            = some lv →
          (linearize T).get? (p - 1) = some e →
          lv.states.get? 0 = some
            (match (runForwardPassPure ctx (maxPool ctx.mem) (maxPool ctx.mem) T).levels.get?
                (e.parent - 1) with
              | some plv => plv.states.getD e.childIndex (ctx.zero, ctx.zero)
              | none => (ctx.zero, ctx.zero))) := by
  set gc := maxPool ctx.mem with hgc
  have hspec := runForwardPassPure_levelsSpec ctx gc gc T
  refine ⟨runForwardPass_eq_pure ctx maxPool minPool meanPool rnnEmb T hsib hattn hrow, ?_, ?_⟩
  · intro lv hlv
    have h0 : (runForwardPassPure ctx gc gc T).levels.get? 0
        = some (runLevelPure ctx gc gc (linearize T)
          ((runForwardPassPure ctx gc gc T).levels.take 0) 1
          (lastLoss ctx ((runForwardPassPure ctx gc gc T).levels.take 0))) := by
      refine hspec 0 ?_
      by_contra hlen
      rw [List.get?_eq_none.mpr (by omega)] at hlv
      cases hlv
    rw [h0] at hlv
    cases hlv
    rw [runLevelPure_states_head]
    rfl
  · intro p lv e hp hlv he
    have hlen : p - 1 < (runForwardPassPure ctx gc gc T).levels.length := by
      by_contra hlen
      rw [List.get?_eq_none.mpr (by omega)] at hlv
      cases hlv
    have hj := hspec (p - 1) hlen
    rw [hj] at hlv
    cases hlv
    rw [runLevelPure_states_head]
    have hparentlt : e.parent ≤ p - 1 := linearize_parent_lt T (p - 1) e he
    rw [show p - 1 + 1 = p by omega]
    rw [seedOf]
    rw [if_neg (by omega : ¬ p = 1)]
    rw [he]
    congr 1
    have htake : ((runForwardPassPure ctx gc gc T).levels.take (p - 1)).get? (e.parent - 1)
        = (runForwardPassPure ctx gc gc T).levels.get? (e.parent - 1) := by
      rcases Nat.eq_zero_or_pos e.parent with hz | hpos
      · rw [hz, List.get?_take (by omega)]
      · rw [List.get?_take (by omega)]
    dsimp only
    rw [htake]

/-- Witness for the amended C2: the concrete teacher-forced run on `exTree`
(whose seeding values are computed in `runForwardPass_exTree`). -/
theorem c2_witness :
    runForwardPass (natCtx false 1 5 5) "max" id id id none 0 exTree
      = .ok (runForwardPassPure (natCtx false 1 5 5)
          (id (natCtx false 1 5 5).mem) (id (natCtx false 1 5 5).mem) exTree) :=
  (c2_amended_seed_from_parent_at_child_index (natCtx false 1 5 5) id id id 0 exTree
    rfl rfl rowFit_exTree).1

/-! ### C3: teacher forcing -/

/-- When every coin fires (`random.random() < ratio` true at every step), the
fed tokens are exactly the ground-truth row prefix. -/
theorem tokenRun_fed_forced (ctx : TrainCtx ε σ π μ α Λ) (parentH : σ) (coin : ℕ → ℚ)
    (row : List ℕ) (hcoin : ∀ i, decide (coin i < ctx.ratio) = true) :
    ∀ (steps : List ℕ) (st : σ × σ) (pp : Option π) (acc : LevelOut σ π Λ),
      (tokenRun ctx parentH coin row steps st pp acc).fed
        = acc.fed ++ steps.map (fun i => row.getD i 0) := by
  intro steps
  induction steps with
  | nil => intro st pp acc; rw [tokenRun]; simp
  | cons i rest ih =>
    intro st pp acc
    have hin : ∀ pp' : Option π, stepInputWord ctx coin row i pp' = row.getD i 0 := by
      intro pp'
      rw [stepInputWord.eq_def]
      simp [hcoin i]
    rw [tokenRun_cons, ih]
    simp [hin]

theorem range_map_getD (row : List ℕ) (n : ℕ) (h : n ≤ row.length) :
    (List.range n).map (fun i => row.getD i 0) = row.take n := by
  induction n with
  | zero => simp
  | succ m ih =>
    rw [List.range_succ, List.map_append, ih (by omega), List.take_succ]
    obtain ⟨v, hv⟩ : ∃ v, row[m]? = some v :=
      ⟨row.get ⟨m, by omega⟩, by rw [List.getElem?_eq_getElem (by omega)]; rfl⟩
    simp [hv, List.getD]

/-- When no coin fires, step 0 feeds the row's start token and every later
step feeds the argmax of the previous step's prediction. -/
theorem tokenRun_fed_free (ctx : TrainCtx ε σ π μ α Λ) (parentH : σ) (coin : ℕ → ℚ)
    (row : List ℕ) (hcoin : ∀ i, decide (coin i < ctx.ratio) = false) :
    ∀ (k s : ℕ) (st : σ × σ) (pp : Option π) (acc : LevelOut σ π Λ),
      acc.fed.length = s → acc.preds.length = s →
      (0 < s → pp = acc.preds.get? (s - 1)) →
      (tokenRun ctx parentH coin row (List.range' s k) st pp acc).fed.length = s + k
      ∧ (tokenRun ctx parentH coin row (List.range' s k) st pp acc).preds.length = s + k
      ∧ (tokenRun ctx parentH coin row (List.range' s k) st pp acc).fed.take s = acc.fed
      ∧ (tokenRun ctx parentH coin row (List.range' s k) st pp acc).preds.take s = acc.preds
      ∧ ∀ j, s ≤ j → j < s + k →
          (tokenRun ctx parentH coin row (List.range' s k) st pp acc).fed.get? j
            = if j = 0 then some (row.getD 0 0)
              else ((tokenRun ctx parentH coin row (List.range' s k) st pp acc).preds.get?
                (j - 1)).map ctx.m.argmax := by
  intro k
  induction k with
  | zero =>
    intro s st pp acc hfed hpreds _
    rw [show List.range' s 0 = [] from rfl, tokenRun]
    refine ⟨by omega, by omega, ?_, ?_, ?_⟩
    · rw [← hfed]; exact List.take_length _
    · rw [← hpreds]; exact List.take_length _
    · intro j h1 h2; omega
  | succ k ih =>
    intro s st pp acc hfed hpreds hpp
    rw [List.range'_succ, tokenRun_cons]
    set w := stepInputWord ctx coin row s pp with hw
    set out1 := decodeStepOk ctx.m ctx.mem w st parentH with hout1
    set acc' : LevelOut σ π Λ :=
      { states := acc.states ++ [out1.2.1]
        fed := acc.fed ++ [w]
        preds := acc.preds ++ [out1.1]
        lossSum := ctx.lossAdd acc.lossSum (ctx.crit out1.1 (row.getD (s + 1) 0)) } with hacc'
    have hIH := ih (s + 1) out1.2.1 (some out1.1) acc'
      (by rw [hacc']; simp [hfed]) (by rw [hacc']; simp [hpreds])
      (by
        intro _
        rw [hacc']
        simp only [Nat.add_sub_cancel]
        rw [← hpreds]
        exact (List.get?_concat_length _ _).symm)
    set OUT := tokenRun ctx parentH coin row (List.range' (s + 1) k) out1.2.1
      (some out1.1) acc' with hOUT
    obtain ⟨h1, h2, h3, h4, h5⟩ := hIH
    have haccfed : acc'.fed = acc.fed ++ [w] := by rw [hacc']
    have haccpreds : acc'.preds = acc.preds ++ [out1.1] := by rw [hacc']
    have hfedtake : OUT.fed.take s = acc.fed := by
      have hts := congrArg (List.take s) h3
      rw [List.take_take, min_eq_left (by omega)] at hts
      rw [hts, haccfed, ← hfed, List.take_left]
    have hpredstake : OUT.preds.take s = acc.preds := by
      have hts := congrArg (List.take s) h4
      rw [List.take_take, min_eq_left (by omega)] at hts
      rw [hts, haccpreds, ← hpreds, List.take_left]
    have hfeds : OUT.fed.get? s = some w := by
      have hts := congrArg (fun l => l.get? s) h3
      simp only [List.get?_take (by omega : s < s + 1), haccfed] at hts
      rw [hts, ← hfed]
      exact List.get?_concat_length _ _
    refine ⟨by omega, by omega, hfedtake, hpredstake, ?_⟩
    intro j hj1 hj2
    by_cases hjs : j = s
    · rw [hjs, hfeds]
      by_cases hs0 : s = 0
      · rw [if_pos hs0, hw, hs0, stepInputWord.eq_def]
        simp [hcoin 0]
      · rw [if_neg hs0]
        have hspos : 0 < s := by omega
        obtain ⟨pr, hpr⟩ : ∃ pr, acc.preds.get? (s - 1) = some pr := by
          have hlt : s - 1 < acc.preds.length := by omega
          exact ⟨acc.preds.get ⟨s - 1, hlt⟩, List.get?_eq_get hlt⟩
        have hppj : pp = some pr := by rw [hpp hspos, hpr]
        have hpredsj : OUT.preds.get? (s - 1) = some pr := by
          have hts := congrArg (fun l => l.get? (s - 1)) h4
          simp only [List.get?_take (by omega : s - 1 < s + 1), haccpreds] at hts
          rw [hts, List.get?_append (by omega)]
          exact hpr
        rw [hpredsj]
        have hwv : w = ctx.m.argmax pr := by
          rw [hw, stepInputWord.eq_def, hppj]
          simp [hcoin s, hspos]
        rw [hwv]
        rfl
    · exact h5 j (by omega) (by omega)

theorem runLevelPure_fed_forced (ctx : TrainCtx ε σ π μ α Λ) (gc gh : σ)
    (queue : List QEntry) (acc : List (LevelOut σ π Λ)) (cur : ℕ) (loss : Λ)
    (hcoin : ∀ i, decide (ctx.coin cur i < ctx.ratio) = true) :
    (runLevelPure ctx gc gh queue acc cur loss).fed
      = (rowOf ctx.lparen queue cur).take ((rowOf ctx.lparen queue cur).length - 1) := by
  rw [runLevelPure]
  rw [tokenRun_fed_forced ctx _ _ _ hcoin]
  dsimp only
  rw [List.nil_append]
  exact range_map_getD _ _ (by omega)

theorem runLevelPure_fed_free (ctx : TrainCtx ε σ π μ α Λ) (gc gh : σ)
    (queue : List QEntry) (acc : List (LevelOut σ π Λ)) (cur : ℕ) (loss : Λ)
    (hcoin : ∀ i, decide (ctx.coin cur i < ctx.ratio) = false) :
    (runLevelPure ctx gc gh queue acc cur loss).fed.length
        = (rowOf ctx.lparen queue cur).length - 1
      ∧ ∀ i, i < (runLevelPure ctx gc gh queue acc cur loss).fed.length →
          (runLevelPure ctx gc gh queue acc cur loss).fed.get? i
            = if i = 0 then some ((rowOf ctx.lparen queue cur).getD 0 0)
              else ((runLevelPure ctx gc gh queue acc cur loss).preds.get? (i - 1)).map
                ctx.m.argmax := by
  have key := tokenRun_fed_free ctx (seedOf ctx gc gh queue acc cur).2 (ctx.coin cur)
    (rowOf ctx.lparen queue cur) hcoin ((rowOf ctx.lparen queue cur).length - 1) 0
    (seedOf ctx gc gh queue acc cur) none
    { states := [seedOf ctx gc gh queue acc cur], fed := [], preds := [], lossSum := loss }
    rfl rfl (by intro h; exact absurd h (by omega))
  obtain ⟨k1, k2, k3, k4, k5⟩ := key
  rw [runLevelPure, List.range_eq_range']
  refine ⟨by rw [k1]; omega, ?_⟩
  intro i hi
  rw [k1] at hi
  exact k5 i (by omega) (by omega)

/-- **C3.**  In the training pass, with teacher-forcing ratio 1 every fed
input is the ground-truth token of the level's `dec_batch` row (the argmax
feedback is never used: `random.random() < 1` always holds), and with ratio 0
step 0 of every level feeds the forced start token of the row while every
step `i > 0` feeds the argmax of the previous step's predicted distribution
(`random.random() < 0` never holds). -/
theorem c3_teacher_forcing (ctx : TrainCtx ε σ π μ α Λ)
    (maxPool minPool meanPool : μ → σ) (rnnEmb : μ) (T : PTree)
    (hsib : ctx.m.rnn.useSibling = false) (hattn : ctx.m.separateAttn = false)
    (hrow : ∀ p, p ≤ (linearize T).length →
      (rowOf ctx.lparen (linearize T) p).length ≤ ctx.maxSeq + 1)
    (hcoin01 : ∀ p i, 0 ≤ ctx.coin p i ∧ ctx.coin p i < 1) :
    runForwardPass ctx "max" maxPool minPool meanPool none rnnEmb T
        = .ok (runForwardPassPure ctx (maxPool ctx.mem) (maxPool ctx.mem) T)
      ∧ (ctx.ratio = 1 → ∀ j lv,
          (runForwardPassPure ctx (maxPool ctx.mem) (maxPool ctx.mem) T).levels.get? j
            = some lv →
          lv.fed = (rowOf ctx.lparen (linearize T) (j + 1)).take
            ((rowOf ctx.lparen (linearize T) (j + 1)).length - 1))
      ∧ (ctx.ratio = 0 → ∀ j lv,
          (runForwardPassPure ctx (maxPool ctx.mem) (maxPool ctx.mem) T).levels.get? j
            = some lv →
          ∀ i, i < lv.fed.length →
            lv.fed.get? i
              = if i = 0 then some ((rowOf ctx.lparen (linearize T) (j + 1)).getD 0 0)
                else (lv.preds.get? (i - 1)).map ctx.m.argmax) := by
  set gc := maxPool ctx.mem with hgc
  have hspec := runForwardPassPure_levelsSpec ctx gc gc T
  refine ⟨runForwardPass_eq_pure ctx maxPool minPool meanPool rnnEmb T hsib hattn hrow, ?_, ?_⟩
  · intro hratio j lv hlv
    have hlen : j < (runForwardPassPure ctx gc gc T).levels.length := by
      by_contra hc
      rw [List.get?_eq_none.mpr (by omega)] at hlv
      cases hlv
    have hj := hspec j hlen
    rw [hj] at hlv
    cases hlv
    exact runLevelPure_fed_forced ctx gc gc (linearize T) _ (j + 1) _
      (fun i => decide_eq_true (by rw [hratio]; exact (hcoin01 (j + 1) i).2))
  · intro hratio j lv hlv
    have hlen : j < (runForwardPassPure ctx gc gc T).levels.length := by
      by_contra hc
      rw [List.get?_eq_none.mpr (by omega)] at hlv
      cases hlv
    have hj := hspec j hlen
    rw [hj] at hlv
    cases hlv
    exact (runLevelPure_fed_free ctx gc gc (linearize T) _ (j + 1) _
      (fun i => decide_eq_false (by rw [hratio]; exact not_lt.mpr (hcoin01 (j + 1) i).1))).2

/-- Witness for C3: the concrete fully teacher-forced run on `exTree`. -/
theorem c3_witness :
    runForwardPass (natCtx false 1 5 5) "max" id id id none 0 exTree
      = .ok (runForwardPassPure (natCtx false 1 5 5)
          (id (natCtx false 1 5 5).mem) (id (natCtx false 1 5 5).mem) exTree) :=
  (c3_teacher_forcing (natCtx false 1 5 5) id id id 0 exTree rfl rfl rowFit_exTree
    (by intro p i; exact ⟨by simp [natCtx], by simp [natCtx]⟩)).1

/-! ### C6: depth and sequence-length truncation -/

/-- Length of the level trace: the level loop runs `cur_index` from 1 while
`cur_index <= max_index`, breaking as soon as `cur_index >
max_dec_tree_depth` (lines 211-213), so exactly `min max_index
max_dec_tree_depth` levels are produced. -/
theorem runLevelsPure_length (ctx : TrainCtx ε σ π μ α Λ) (gc gh : σ)
    (queue : List QEntry) (maxIndex : ℕ) :
    ∀ (fuel cur : ℕ) (acc : List (LevelOut σ π Λ)) (loss : Λ),
      cur = acc.length + 1 → acc.length ≤ min maxIndex ctx.maxDepth →
      maxIndex ≤ fuel + acc.length →
      (runLevelsPure ctx gc gh queue maxIndex fuel cur acc loss).1.length
        = min maxIndex ctx.maxDepth := by
  intro fuel
  induction fuel with
  | zero =>
    intro cur acc loss hcur hle hfuel
    rw [runLevelsPure]
    by_cases h1 : cur ≤ maxIndex
    · rw [if_pos h1]
      by_cases h2 : ctx.maxDepth < cur
      · rw [if_pos h2]
        show acc.length = min maxIndex ctx.maxDepth
        omega
      · exact absurd hfuel (by omega)
    · rw [if_neg h1]
      show acc.length = min maxIndex ctx.maxDepth
      omega
  | succ fuel ih =>
    intro cur acc loss hcur hle hfuel
    rw [runLevelsPure]
    by_cases h1 : cur ≤ maxIndex
    · rw [if_pos h1]
      by_cases h2 : ctx.maxDepth < cur
      · rw [if_pos h2]
        show acc.length = min maxIndex ctx.maxDepth
        omega
      · rw [if_neg h2]
        exact ih (cur + 1) (acc ++ [runLevelPure ctx gc gh queue acc cur loss]) _
          (by simp [hcur])
          (by simp only [List.length_append, List.length_cons, List.length_nil]; omega)
          (by simp only [List.length_append, List.length_cons, List.length_nil]; omega)
    · rw [if_neg h1]
      show acc.length = min maxIndex ctx.maxDepth
      omega

theorem runForwardPassPure_length (ctx : TrainCtx ε σ π μ α Λ) (gc gh : σ) (T : PTree) :
    (runForwardPassPure ctx gc gh T).levels.length
      = min (linearize T).length ctx.maxDepth := by
  rw [runForwardPassPure]
  exact runLevelsPure_length ctx gc gh (linearize T) (linearize T).length
    ((linearize T).length + 1) 1 [] ctx.lossInit rfl (by simp) (by simp)

/-! ### Greedy inference (`translate`, lines 363-481, `use_beam_search = False`) -/

/-- One entry of `queue_decode` in `translate` (line 398): the cloned decoder
state, the 1-based queue position of the parent, the child slot claimed in
the parent, and the subtree grown at this entry (a fresh empty `Tree()` at
creation). -/
structure DecEntry (σ : Type) where
  s : σ × σ
  parent : ℕ
  childIndex : ℕ
  t : PTree

/-- The collaborators of greedy decoding in `translate`: the decoder, the
encoder outputs used as attention memory, the special token ids read from
`form_manager` and the two loop bounds.  The word read back at line 438-439
is `argmax(log(prediction + 1e-31))`; the logarithm is strictly monotone, so
this is the same argmax the decoder model reads in training. -/
structure InferCtx (ε σ π μ α : Type) where
  m : DecModel ε σ π μ α
  mem : μ
  startTok : ℕ
  endTok : ℕ
  lparen : ℕ
  maxSeq : ℕ
  maxDepth : ℕ

/-- The inner greedy loop of `translate` (lines 429-449): decode one step
from the current state and previous word, take the argmax word, and stop —
discarding that word — as soon as it is the end token or the node already
holds `max_dec_seq_length` children (line 442).  Otherwise the word is
attached as a child, a fresh queue entry is enqueued when it is the
non-terminal token (lines 444-446), and the loop continues.  `decode_step`
is called without a sibling state, exactly as written at lines 429-435.  The
loop carries explicit fuel; every non-stopping iteration attaches one child,
so `max_dec_seq_length + 1` steps always suffice (shown below). -/
def greedyLoop (ctx : InferCtx ε σ π μ α) (parentH : σ) (head : ℕ) :
    ℕ → σ × σ → ℕ → ℕ → List PChild → List (DecEntry σ) →
    Except DecErr (List PChild × List (DecEntry σ))
  | fuel, s, prevWord, iChild, children, newEntries =>
    match decodeStepM ctx.m ctx.mem prevWord s parentH none with
    | .error e => .error e
    | .ok out =>
      let w := ctx.m.argmax out.1
      if w = ctx.endTok ∨ ctx.maxSeq ≤ children.length then
        .ok (children, newEntries)
      else
        match fuel with
        | 0 => .error .loopFuel
        | fuel' + 1 =>
          if w = ntTok then
            greedyLoop ctx parentH head fuel' out.2.1 w (iChild + 1)
              (children ++ [.tok w])
              (newEntries ++ [⟨out.2.1, head, iChild, .node []⟩])
          else
            greedyLoop ctx parentH head fuel' out.2.1 w (iChild + 1)
              (children ++ [.tok w]) newEntries

/-- The outer loop of `translate` (lines 401-477): expand queue entry `head`
while `head <= len(queue_decode)` and `head <= max_dec_tree_depth`; the first
input word is the start token at the root and `'('` below (lines 419-424);
the children grown by the inner loop replace the entry's empty tree and the
freshly enqueued non-terminal entries are appended.  (The sibling state
computed at lines 407-416 is dead: `decode_step` is called without it.)
Fuel is explicit; `head` increases by one per iteration, so
`max_dec_tree_depth + 1` steps always suffice (shown below). -/
def headLoop (ctx : InferCtx ε σ π μ α) :
    ℕ → List (DecEntry σ) → ℕ → Except DecErr (List (DecEntry σ))
  | fuel, queue, head =>
    if head ≤ queue.length ∧ head ≤ ctx.maxDepth then
      match queue.get? (head - 1), fuel with
      | none, _ => .ok queue
      | some _, 0 => .error .loopFuel
      | some e, fuel' + 1 =>
        let prevWord := if head = 1 then ctx.startTok else ctx.lparen
        match greedyLoop ctx e.s.2 head (ctx.maxSeq + 1) e.s prevWord 1 [] [] with
        | .error err => .error err
        | .ok res =>
          headLoop ctx fuel' (queue.set (head - 1) { e with t := .node res.1 } ++ res.2)
            (head + 1)
    else .ok queue

/-- `translate` (lines 363-481) with greedy search on a batch of one graph:
the pooled graph embedding seeds the root state, the queue starts with the
single root entry `{"s": (prev_c, prev_h), "parent": 0, "child_index": 1,
"t": Tree()}` (line 397), and the head loop runs from `head = 1`.  The final
child re-assembly of lines 478-481 reads the finished queue; this function
returns that queue. -/
def translateGreedy (ctx : InferCtx ε σ π μ α) (pooled : σ) :
    Except DecErr (List (DecEntry σ)) :=
  headLoop ctx (ctx.maxDepth + 1) [⟨(pooled, pooled), 0, 1, .node []⟩] 1

/-- The inner greedy loop always succeeds when given `max_dec_seq_length + 1`
fuel, its result extends the entry's children by plain tokens none of which
is the end token, the child count never exceeds `max_dec_seq_length`, and
every enqueued entry carries a fresh empty tree and points at an attached
non-terminal child of its parent. -/
theorem greedyLoop_spec (ctx : InferCtx ε σ π μ α) (parentH : σ) (head : ℕ)
    (hsib : ctx.m.rnn.useSibling = false) (hattn : ctx.m.separateAttn = false) :
    ∀ (fuel : ℕ) (s : σ × σ) (prevWord iChild : ℕ) (children : List PChild)
      (newEntries : List (DecEntry σ)),
      ctx.maxSeq + 1 ≤ fuel + children.length →
      iChild = children.length + 1 →
      ∃ (extra : List ℕ) (extraE : List (DecEntry σ)),
        greedyLoop ctx parentH head fuel s prevWord iChild children newEntries
            = .ok (children ++ extra.map PChild.tok, newEntries ++ extraE)
          ∧ (∀ w ∈ extra, w ≠ ctx.endTok)
          ∧ children.length + extra.length ≤ max children.length ctx.maxSeq
          ∧ ∀ e ∈ extraE, e.parent = head ∧ e.t = PTree.node []
              ∧ (children ++ extra.map PChild.tok).get? (e.childIndex - 1)
                  = some (.tok ntTok) := by
  intro fuel
  induction fuel with
  | zero =>
    intro s prevWord iChild children newEntries hfuel hchild
    refine ⟨[], [], ?_, by simp, by simp, by simp⟩
    rw [greedyLoop, decodeStepM_eq_ok ctx.m ctx.mem prevWord s parentH none hsib hattn]
    simp only
    rw [if_pos (Or.inr (by omega))]
    simp
  | succ fuel ih =>
    intro s prevWord iChild children newEntries hfuel hchild
    rw [greedyLoop, decodeStepM_eq_ok ctx.m ctx.mem prevWord s parentH none hsib hattn]
    simp only
    by_cases hstop : ctx.m.argmax (decodeStepOk ctx.m ctx.mem prevWord s parentH).1
        = ctx.endTok ∨ ctx.maxSeq ≤ children.length
    · rw [if_pos hstop]
      exact ⟨[], [], by simp, by simp, by simp, by simp⟩
    · rw [if_neg hstop]
      push_neg at hstop
      by_cases hnt : ctx.m.argmax (decodeStepOk ctx.m ctx.mem prevWord s parentH).1 = ntTok
      · rw [if_pos hnt]
        obtain ⟨extra', extraE', h1, h2, h3, h4⟩ :=
          ih (decodeStepOk ctx.m ctx.mem prevWord s parentH).2.1
            (ctx.m.argmax (decodeStepOk ctx.m ctx.mem prevWord s parentH).1) (iChild + 1)
            (children ++ [.tok (ctx.m.argmax (decodeStepOk ctx.m ctx.mem prevWord s parentH).1)])
            (newEntries ++ [⟨(decodeStepOk ctx.m ctx.mem prevWord s parentH).2.1, head,
              iChild, .node []⟩])
            (by simp only [List.length_append, List.length_cons, List.length_nil]; omega)
            (by simp only [List.length_append, List.length_cons, List.length_nil]; omega)
        refine ⟨ctx.m.argmax (decodeStepOk ctx.m ctx.mem prevWord s parentH).1 :: extra',
          ⟨(decodeStepOk ctx.m ctx.mem prevWord s parentH).2.1, head, iChild, .node []⟩
            :: extraE', ?_, ?_, ?_, ?_⟩
        · rw [h1]
          simp [List.append_assoc]
        · intro w hw
          rcases List.mem_cons.mp hw with hw | hw
          · rw [hw]; exact hstop.1
          · exact h2 w hw
        · simp only [List.length_append, List.length_cons, List.length_nil] at h3
          simp only [List.length_cons]
          omega
        · intro e he
          rcases List.mem_cons.mp he with he | he
          · subst he
            refine ⟨rfl, rfl, ?_⟩
            rw [hchild]
            simp only [Nat.add_sub_cancel, List.map_cons]
            rw [List.get?_append_right (by omega)]
            simp [hnt]
          · obtain ⟨hp, ht, hg⟩ := h4 e he
            refine ⟨hp, ht, ?_⟩
            rw [← hg]
            simp [List.append_assoc]
      · rw [if_neg hnt]
        obtain ⟨extra', extraE', h1, h2, h3, h4⟩ :=
          ih (decodeStepOk ctx.m ctx.mem prevWord s parentH).2.1
            (ctx.m.argmax (decodeStepOk ctx.m ctx.mem prevWord s parentH).1) (iChild + 1)
            (children ++ [.tok (ctx.m.argmax (decodeStepOk ctx.m ctx.mem prevWord s parentH).1)])
            newEntries
            (by simp only [List.length_append, List.length_cons, List.length_nil]; omega)
            (by simp only [List.length_append, List.length_cons, List.length_nil]; omega)
        refine ⟨ctx.m.argmax (decodeStepOk ctx.m ctx.mem prevWord s parentH).1 :: extra',
          extraE', ?_, ?_, ?_, ?_⟩
        · rw [h1]
          simp [List.append_assoc]
        · intro w hw
          rcases List.mem_cons.mp hw with hw | hw
          · rw [hw]; exact hstop.1
          · exact h2 w hw
        · simp only [List.length_append, List.length_cons, List.length_nil] at h3
          simp only [List.length_cons]
          omega
        · intro e he
          obtain ⟨hp, ht, hg⟩ := h4 e he
          refine ⟨hp, ht, ?_⟩
          rw [← hg]
          simp [List.append_assoc]

/-- The head loop always succeeds when given enough fuel, and its final queue
keeps three invariants: entries past position `max_dec_tree_depth` are never
expanded, every node's children are non-end tokens and at most
`max_dec_seq_length` many, and every non-root entry points at an attached
non-terminal child of its parent. -/
theorem headLoop_spec (ctx : InferCtx ε σ π μ α)
    (hsib : ctx.m.rnn.useSibling = false) (hattn : ctx.m.separateAttn = false) :
    ∀ (fuel : ℕ) (queue : List (DecEntry σ)) (head : ℕ),
      1 ≤ head → head ≤ ctx.maxDepth + 1 →
      ctx.maxDepth + 1 ≤ fuel + head →
      (∀ j e, head - 1 ≤ j → queue.get? j = some e → e.t = PTree.node []) →
      (∀ e ∈ queue, e.t.children.length ≤ ctx.maxSeq
        ∧ ∀ c ∈ e.t.children, ∃ w, c = PChild.tok w ∧ w ≠ ctx.endTok) →
      (∀ e ∈ queue, e.parent = 0 ∨ (1 ≤ e.parent ∧ e.parent ≤ head - 1
        ∧ ∃ pe, queue.get? (e.parent - 1) = some pe
            ∧ pe.t.children.get? (e.childIndex - 1) = some (.tok ntTok))) →
      ∃ q', headLoop ctx fuel queue head = .ok q'
        ∧ (∀ e ∈ q'.drop ctx.maxDepth, e.t = PTree.node [])
        ∧ (∀ e ∈ q', e.t.children.length ≤ ctx.maxSeq
            ∧ ∀ c ∈ e.t.children, ∃ w, c = PChild.tok w ∧ w ≠ ctx.endTok)
        ∧ (∀ e ∈ q', e.parent = 0 ∨
            ∃ pe, q'.get? (e.parent - 1) = some pe
              ∧ pe.t.children.get? (e.childIndex - 1) = some (.tok ntTok)) := by
  intro fuel
  induction fuel with
  | zero =>
    intro queue head hh1 hh2 hfuel hI1 hI2 hI3
    refine ⟨queue, ?_, ?_, hI2, ?_⟩
    · rw [headLoop.eq_def]
      exact if_neg (by omega)
    · intro e he
      obtain ⟨m, hm⟩ := List.mem_iff_get?.mp he
      rw [List.get?_drop] at hm
      exact hI1 (ctx.maxDepth + m) e (by omega) hm
    · intro e he
      rcases hI3 e he with h0 | ⟨_, _, pe, hpe, hc⟩
      · exact Or.inl h0
      · exact Or.inr ⟨pe, hpe, hc⟩
  | succ fuel ih =>
    intro queue head hh1 hh2 hfuel hI1 hI2 hI3
    by_cases hcond : head ≤ queue.length ∧ head ≤ ctx.maxDepth
    · obtain ⟨e, he⟩ : ∃ e, queue.get? (head - 1) = some e :=
        ⟨queue.get ⟨head - 1, by omega⟩, List.get?_eq_get (by omega)⟩
      obtain ⟨extra, extraE, hgl, hne, hlen, hE⟩ :=
        greedyLoop_spec ctx e.s.2 head hsib hattn (ctx.maxSeq + 1) e.s
          (if head = 1 then ctx.startTok else ctx.lparen) 1 [] [] (by simp) rfl
      rw [headLoop.eq_def]
      simp only
      rw [if_pos hcond, he]
      simp only
      rw [hgl]
      simp only [List.nil_append]
      have hset : ∀ j, j ≠ head - 1 →
          (queue.set (head - 1) { e with t := PTree.node (extra.map PChild.tok) }
            ++ extraE).get? j
            = if j < queue.length then queue.get? j else extraE.get? (j - queue.length) := by
        intro j hj
        by_cases hjl : j < queue.length
        · rw [if_pos hjl, List.get?_append (by simpa using hjl),
            List.get?_set_ne _ _ (fun hc => hj hc.symm)]
        · rw [if_neg hjl, List.get?_append_right (by simp; omega), List.length_set]
      have hsetAt :
          (queue.set (head - 1) { e with t := PTree.node (extra.map PChild.tok) }
            ++ extraE).get? (head - 1)
            = some { e with t := PTree.node (extra.map PChild.tok) } := by
        rw [List.get?_append (by simp; omega), List.get?_set_eq_of_lt _ (by omega)]
      have hmemQ : ∀ a, a ∈ queue.set (head - 1)
            { e with t := PTree.node (extra.map PChild.tok) } ++ extraE →
          a ∈ queue ∨ a = { e with t := PTree.node (extra.map PChild.tok) } ∨ a ∈ extraE := by
        intro a ha
        rcases List.mem_append.mp ha with ha | ha
        · rcases List.mem_or_eq_of_mem_set ha with ha | ha
          · exact Or.inl ha
          · exact Or.inr (Or.inl ha)
        · exact Or.inr (Or.inr ha)
      refine ih (queue.set (head - 1) { e with t := PTree.node (extra.map PChild.tok) }
          ++ extraE) (head + 1) (by omega) (by omega) (by omega) ?_ ?_ ?_
      · -- entries at positions ≥ head are still unexpanded
        intro j e' hj hje
        by_cases hjl : j < queue.length
        · rw [hset j (by omega), if_pos hjl] at hje
          exact hI1 j e' (by omega) hje
        · rw [hset j (by omega), if_neg hjl] at hje
          exact (hE e' (List.mem_iff_get?.mpr ⟨j - queue.length, hje⟩)).2.1
      · -- children bounds and non-end tokens
        intro a ha
        rcases hmemQ a ha with ha | ha | ha
        · exact hI2 a ha
        · subst ha
          simp only [PTree.children, List.length_map]
          constructor
          · simpa using hlen
          · intro c hc
            obtain ⟨w, hw, hwc⟩ := List.mem_map.mp hc
            exact ⟨w, hwc.symm, hne w hw⟩
        · obtain ⟨_, ht, _⟩ := hE a ha
          rw [ht]
          simp only [PTree.children]
          exact ⟨by simp, by simp⟩
      · -- every non-root entry points at an attached non-terminal child
        intro a ha
        rcases hmemQ a ha with ha | ha | ha
        · rcases hI3 a ha with h0 | ⟨hp1, hp2, pe, hpe, hc⟩
          · exact Or.inl h0
          · refine Or.inr ⟨hp1, by omega, pe, ?_, hc⟩
            rw [hset (a.parent - 1) (by omega),
              if_pos (by have := List.get?_eq_some.mp hpe; omega)]
            exact hpe
        · subst ha
          dsimp only
          rcases hI3 e (List.mem_iff_get?.mpr ⟨head - 1, he⟩) with h0 | ⟨hp1, hp2, pe, hpe, hc⟩
          · exact Or.inl h0
          · refine Or.inr ⟨hp1, by omega, pe, ?_, hc⟩
            rw [hset (e.parent - 1) (by omega),
              if_pos (by have := List.get?_eq_some.mp hpe; omega)]
            exact hpe
        · obtain ⟨hp, _, hg⟩ := hE a ha
          refine Or.inr ⟨by omega, by omega,
            { e with t := PTree.node (extra.map PChild.tok) }, ?_, ?_⟩
          · rw [hp, hsetAt]
          · simpa [PTree.children] using hg
    · refine ⟨queue, ?_, ?_, hI2, ?_⟩
      · rw [headLoop.eq_def]
        exact if_neg hcond
      · intro a ha
        obtain ⟨m, hm⟩ := List.mem_iff_get?.mp ha
        rw [List.get?_drop] at hm
        refine hI1 (ctx.maxDepth + m) a ?_ hm
        rcases not_and_or.mp hcond with hc | hc
        · have := List.get?_eq_some.mp hm
          omega
        · omega
      · intro a ha
        rcases hI3 a ha with h0 | ⟨_, _, pe, hpe, hc⟩
        · exact Or.inl h0
        · exact Or.inr ⟨pe, hpe, hc⟩

/-- Concrete greedy-inference context over the `ℕ` decoder: memory 7, start
token 1, end token 2, `'('` id 3, both bounds 5. -/
def natInferCtx : InferCtx ℕ ℕ ℕ ℕ ℕ :=
  { m := natModel false
    mem := 7
    startTok := 1
    endTok := 2
    lparen := 3
    maxSeq := 5
    maxDepth := 5 }

/-- **C6.**  Exceeding the configured maximum tree depth or maximum sequence
length never raises an error and truncates only the affected part: the
training level loop breaks once `cur_index > max_dec_tree_depth`, producing
exactly `min max_index max_dec_tree_depth` levels with no error; and in
greedy inference queue entries past position `max_dec_tree_depth` are never
expanded, every branch stops before exceeding `max_dec_seq_length` children,
the end token that stops a branch is never attached as a child, and every
enqueued non-terminal entry points at a non-terminal child actually attached
to its parent (no partial non-terminal child). -/
theorem c6_truncation_without_error
    (tctx : TrainCtx ε σ π μ α Λ) (maxPool minPool meanPool : μ → σ) (rnnEmb : μ)
    (T : PTree)
    (hsib : tctx.m.rnn.useSibling = false) (hattn : tctx.m.separateAttn = false)
    (hrow : ∀ p, p ≤ (linearize T).length →
      (rowOf tctx.lparen (linearize T) p).length ≤ tctx.maxSeq + 1)
    (ictx : InferCtx ε' σ' π' μ' α') (pooled : σ')
    (hisib : ictx.m.rnn.useSibling = false) (hiattn : ictx.m.separateAttn = false) :
    (runForwardPass tctx "max" maxPool minPool meanPool none rnnEmb T
        = .ok (runForwardPassPure tctx (maxPool tctx.mem) (maxPool tctx.mem) T)
      ∧ (runForwardPassPure tctx (maxPool tctx.mem) (maxPool tctx.mem) T).levels.length
          = min (linearize T).length tctx.maxDepth)
      ∧ ∃ q', translateGreedy ictx pooled = .ok q'
          ∧ (∀ e ∈ q'.drop ictx.maxDepth, e.t = PTree.node [])
          ∧ (∀ e ∈ q', e.t.children.length ≤ ictx.maxSeq
              ∧ ∀ c ∈ e.t.children, ∃ w, c = PChild.tok w ∧ w ≠ ictx.endTok)
          ∧ (∀ e ∈ q', e.parent = 0 ∨
              ∃ pe, q'.get? (e.parent - 1) = some pe
                ∧ pe.t.children.get? (e.childIndex - 1) = some (.tok ntTok)) := by
  have hinit1 : ∀ (j : ℕ) (e : DecEntry σ'), 1 - 1 ≤ j →
      ([⟨(pooled, pooled), 0, 1, PTree.node []⟩] : List (DecEntry σ')).get? j = some e →
      e.t = PTree.node [] := by
    intro j e _ hje
    rcases j with _ | j
    · simp only [List.get?] at hje
      cases hje
      rfl
    · simp at hje
  have hinit2 : ∀ e ∈ ([⟨(pooled, pooled), 0, 1, PTree.node []⟩] : List (DecEntry σ')),
      e.t.children.length ≤ ictx.maxSeq
        ∧ ∀ c ∈ e.t.children, ∃ w, c = PChild.tok w ∧ w ≠ ictx.endTok := by
    intro e he
    simp only [List.mem_singleton] at he
    subst he
    exact ⟨by simp [PTree.children], by simp [PTree.children]⟩
  have hinit3 : ∀ e ∈ ([⟨(pooled, pooled), 0, 1, PTree.node []⟩] : List (DecEntry σ')),
      e.parent = 0 ∨ (1 ≤ e.parent ∧ e.parent ≤ 1 - 1
        ∧ ∃ pe, ([⟨(pooled, pooled), 0, 1, PTree.node []⟩] : List (DecEntry σ')).get?
              (e.parent - 1) = some pe
            ∧ pe.t.children.get? (e.childIndex - 1) = some (.tok ntTok)) := by
    intro e he
    simp only [List.mem_singleton] at he
    subst he
    exact Or.inl rfl
  obtain ⟨q', h1, h2, h3, h4⟩ := headLoop_spec ictx hisib hiattn (ictx.maxDepth + 1)
    [⟨(pooled, pooled), 0, 1, PTree.node []⟩] 1 (by omega) (by omega) (by omega)
    hinit1 hinit2 hinit3
  exact ⟨⟨runForwardPass_eq_pure tctx maxPool minPool meanPool rnnEmb T hsib hattn hrow,
    runForwardPassPure_length tctx _ _ T⟩, q', h1, h2, h3, h4⟩

/-- Witness for C6: the concrete run on `exTree` with `max_dec_tree_depth = 1`
truncates the two-level tree to its first level, with no error. -/
theorem c6_witness :
    runForwardPass (natCtx false 1 1 5) "max" id id id none 0 exTree
        = .ok (runForwardPassPure (natCtx false 1 1 5)
            (id (natCtx false 1 1 5).mem) (id (natCtx false 1 1 5).mem) exTree)
      ∧ (runForwardPassPure (natCtx false 1 1 5)
            (id (natCtx false 1 1 5).mem) (id (natCtx false 1 1 5).mem) exTree).levels.length
          = min (linearize exTree).length (natCtx false 1 1 5).maxDepth :=
  (c6_truncation_without_error (natCtx false 1 1 5) id id id 0 exTree rfl rfl
    (by simp only [linearize_exTree]; decide) natInferCtx 7 rfl rfl).1

end TreeDecoder
